import Mathlib

/-!
Verification of the cache-synchronization core of `supabase-realtime-query`.

The definitions below are a shallow embedding of the TypeScript sources
`src/query-keys.ts`, `src/repository.ts`, `src/hooks.tsx` and the relevant
external collaborator interfaces (React Query's query cache, JS `Map`,
lodash `sortBy`, rxjs `Subscription`).  Each definition carries a comment
pointing at the source location it embeds.
-/

/-- A JavaScript record id: the source types ids as `string | number`
(`types.ts`, `Row: { id: string | number }`). -/
inductive JsId where
  | str (s : String)
  | num (n : Int)
deriving DecidableEq

/-- JS `String(x)` for an id, as used by `Array.prototype.join` and the
default `Array.prototype.sort` comparator. -/
def jsIdToString : JsId → String
  | .str s => s
  | .num n => toString n

/-- JS string comparison (`<=`) on code units, used by the default
`Array.prototype.sort` comparator; restricted to the characters appearing
in ids this agrees with comparing code points. -/
def charListLe : List Char → List Char → Bool
  | [], _ => true
  | _ :: _, [] => false
  | a :: as, b :: bs => if a = b then charListLe as bs else decide (a < b)

def strLe (a b : String) : Bool := charListLe a.data b.data

/-- Stable insertion of a string into a list sorted by `strLe`. -/
def insertStr (a : String) : List String → List String
  | [] => [a]
  | b :: l => if strLe a b then a :: b :: l else b :: insertStr a l

/-- JS default `Array.prototype.sort` on strings (lexicographic). -/
def sortStrs : List String → List String
  | [] => []
  | a :: l => insertStr a (sortStrs l)

/-- JS `ids.join(",")`: stringify each id and join with commas. -/
def jsArrayJoin (ids : List JsId) : String :=
  String.intercalate "," (ids.map jsIdToString)

/-- JS `[...ids].sort().join(",")`: the default sort compares the string
forms of the elements, and `join` then stringifies them, so the result is
the comma-join of the lexicographically sorted string forms. -/
def jsSortedJoin (ids : List JsId) : String :=
  String.intercalate "," (sortStrs (ids.map jsIdToString))

/-- A React Query cache key: an array of strings/ids
(query keys in this codebase are `[table, id]`, `[table, "list", name]`,
`[table, "byIds", joined]`). -/
abbrev Key := List JsId

/-- Source `query-keys.ts`: `recordQueryKey(table, id) = [table, id]`. -/
def recordQueryKey (table : String) (id : JsId) : Key :=
  [.str table, id]

/-- Source `query-keys.ts`: `recordListQueryKey(table, listName) = [table, "list", listName]`. -/
def recordListQueryKey (table : String) (listName : String) : Key :=
  [.str table, .str "list", .str listName]

/-- Source `query-keys.ts`: `recordByIdsQueryKey(table, ids) = [table, "byIds", [...ids].sort().join(",")]`. -/
def recordByIdsQueryKey (table : String) (ids : List JsId) : Key :=
  [.str table, .str "byIds", .str (jsSortedJoin ids)]

/-- Source `hooks.tsx` line 68: the `useQuery` key of `useRecordByIds` is
`[table, "byIds", ids.join(",")]` — note the ids are NOT sorted here. -/
def useRecordByIdsQueryKey (table : String) (ids : List JsId) : Key :=
  [.str table, .str "byIds", .str (jsArrayJoin ids)]

/-- Source `hooks.tsx` line 58: the query-cache subscription inside `useRecordByIds`
writes the refreshed item list under `[table, "byIds", [...ids].sort().join(",")]`. -/
def useRecordByIdsSubscriptionWriteKey (table : String) (ids : List JsId) : Key :=
  [.str table, .str "byIds", .str (jsSortedJoin ids)]

/-- An entity record: a snapshot with an `id` plus further fields; field
values are modelled as numbers, which is all the list views' sort/filter
logic inspects. -/
structure Rec where
  id : JsId
  data : List (String × Int)
deriving DecidableEq

/-- A value held in a React Query cache entry in this codebase: a single
record (record keys), a list of records (list / byIds keys), or `null`
(cached by `useRecordById` for falsy ids). -/
inductive CacheVal where
  | record (r : Rec)
  | records (rs : List Rec)
  | null
deriving DecidableEq

section AList

variable {κ α : Type} [DecidableEq κ]

/-- Keyed set (full replace / upsert) on an association list.  This models
both `queryClient.setQueryData` (one entry per query key) and JS
`Map.prototype.set` (insertion order preserved, in-place replace). -/
def alistSet : List (κ × α) → κ → α → List (κ × α)
  | [], k, v => [(k, v)]
  | (k', v') :: rest, k, v =>
    if k' = k then (k, v) :: rest else (k', v') :: alistSet rest k v

/-- Keyed lookup; models `queryClient.getQueryData` / `Map.prototype.get`
(`undefined` becomes `none`). -/
def alistGet : List (κ × α) → κ → Option α
  | [], _ => none
  | (k', v') :: rest, k => if k' = k then some v' else alistGet rest k

/-- JS `Map.prototype.delete`: drop the entry with the given key. -/
def alistDelete (m : List (κ × α)) (k : κ) : List (κ × α) :=
  m.filter (fun p => decide (p.1 ≠ k))

end AList

/-- The React Query cache of one `Repository`'s `queryClient`: one entry per
query key (`setQueryData` upserts, `removeQueries` removes). -/
abbrev Store := List (Key × CacheVal)

/-- Models `queryClient.setQueryData(key, value)`. -/
def setQueryData (s : Store) (k : Key) (v : CacheVal) : Store := alistSet s k v

/-- Models `queryClient.getQueryData(key)` (`undefined` becomes `none`). -/
def getQueryData (s : Store) (k : Key) : Option CacheVal := alistGet s k

/-- Reading a single-record entry: the cache value under
`recordQueryKey(table, id)` when it is a record; anything else (absent, a
cached `null`, a list) is not a usable record — in the source `if (cached)`
is falsy for `undefined`/`null`. -/
def getRecordData (s : Store) (table : String) (id : JsId) : Option Rec :=
  match getQueryData s (recordQueryKey table id) with
  | some (.record r) => some r
  | _ => none

/-- Reading a list entry (the materialized result of a list view). -/
def getListData (s : Store) (k : Key) : Option (List Rec) :=
  match getQueryData s k with
  | some (.records rs) => some rs
  | _ => none

/-- Models `queryClient.setQueryData(key, updater)`: React Query calls the updater
with the current data and bails out (no write) when it returns `undefined`. -/
def updateListData (s : Store) (k : Key) (f : Option (List Rec) → Option (List Rec)) : Store :=
  match f (getListData s k) with
  | none => s
  | some rs => setQueryData s k (.records rs)

/-- A JS `Map` from ids to records (insertion-ordered, keys unique). -/
abbrev JsMap := List (JsId × Rec)

/-- Source `types.ts` `Sort`: `{ key, comparable, order }` (`order` is `"asc"` or
`"desc"`); the source type is named `Sort`, which is reserved in Lean. -/
structure SortConfig where
  key : String
  comparable : Int → Int
  order : String

/-- Field access `value[sortConfig.key]`.  Well-formed records carry the
sort key; for absent fields the JS code would produce `undefined`, which is
outside the modelled domain, so `0` stands in. -/
def fieldOf (r : Rec) (k : String) : Int :=
  (alistGet r.data k).getD 0

/-- The sort iteratee of `useRecordListQuery` (`hooks.tsx` lines 154-158):
`sortConfig.comparable(value[sortConfig.key]) * (sortConfig.order === "asc" ? 1 : -1)`. -/
def sortIteratee (sortConfig : SortConfig) (value : Rec) : Int :=
  sortConfig.comparable (fieldOf value sortConfig.key) *
    (if sortConfig.order = "asc" then 1 else -1)

/-- Stable insertion for the insertion-sort model of lodash `sortBy`. -/
def insertByKey {α : Type} (key : α → Int) (a : α) : List α → List α
  | [] => [a]
  | b :: l => if key a ≤ key b then a :: b :: l else b :: insertByKey key a l

/-- lodash `sortBy(xs, [iteratee])`: a stable ascending sort by the
iteratee value. -/
def sortByKey {α : Type} (key : α → Int) : List α → List α
  | [] => []
  | a :: l => insertByKey key a (sortByKey key l)

/-- The options of a `useRecordListQuery` list view: filter predicate
(optional) and sort configuration (`hooks.tsx` lines 111-115; the remote
query builder is irrelevant to event handling and omitted). -/
structure ListOptions where
  sort : SortConfig
  filter : Option (Rec → Bool)

/-- JS `new Map(prevData.map(item => [item.id, item]))`: build a JS `Map`
keyed by id by inserting the entries left to right. -/
def buildMapLoop : List Rec → JsMap → JsMap
  | [], m => m
  | item :: rest, m => buildMapLoop rest (alistSet m item.id item)

def buildMap (prevData : List Rec) : JsMap := buildMapLoop prevData []

/-- The "updated" branch of the query-cache subscription in
`useRecordListQuery` (`hooks.tsx` lines 137-161): the updater applied to the
view's materialized list when a single-record entry was written.  `action`
is the dispatched action's data when it was a success action
(`event.action.type === "success" && event.action.data`, which is falsy
otherwise). -/
def applyListUpdated (options : ListOptions) (prevData : Option (List Rec))
    (action : Option Rec) : Option (List Rec) :=
  match prevData with
  | none => none
  | some prev =>
    match action with
    | none => some prev
    | some newRecord =>
      let m := buildMap prev
      let m2 :=
        match options.filter with
        | some f => if f newRecord = false then alistDelete m newRecord.id
                    else alistSet m newRecord.id newRecord
        | none => alistSet m newRecord.id newRecord
      some (sortByKey (sortIteratee options.sort) (m2.map Prod.snd))

/-- The "removed" branch of the query-cache subscription in
`useRecordListQuery` (`hooks.tsx` lines 127-135): splice out the entry whose
id is the removed query key's second element. -/
def applyListRemoved (prevData : Option (List Rec)) (removedId : JsId) :
    Option (List Rec) :=
  match prevData with
  | none => none
  | some prev =>
    match prev.findIdx? (fun item => decide (item.id = removedId)) with
    | none => some prev
    | some index => some (prev.take index ++ prev.drop (index + 1))

/-- A mounted `useRecordListQuery` hook: its table, the `listName` naming
its cache slot, and its options. -/
structure ListView where
  table : String
  listName : String
  options : ListOptions

def listKeyOf (v : ListView) : Key := recordListQueryKey v.table v.listName

/-- A query-cache notification as observed by the hook subscriptions:
a query was removed, or a query's data was set (success action carrying the
new data). -/
inductive CacheEvent where
  | removed (key : Key)
  | updated (key : Key) (action : Option Rec)

def CacheEvent.key : CacheEvent → Key
  | .removed k => k
  | .updated k _ => k

/-- The guard of the subscription callback in `useRecordListQuery`
(`hooks.tsx` line 126): `event.query.queryKey[0] === table &&
event.query.queryKey.length === 2`. -/
def keyGuard (table : String) (k : Key) : Bool :=
  match k with
  | [k0, _] => decide (k0 = JsId.str table)
  | _ => false

/-- Models `event.query.queryKey[1]` (defined whenever `keyGuard` holds). -/
def keySecond (k : Key) : JsId :=
  match k with
  | _ :: x :: _ => x
  | _ => .str ""

/-- One list view's subscription callback handling one cache notification
(`hooks.tsx` lines 125-164). -/
def listViewOnCacheEvent (v : ListView) (e : CacheEvent) (s : Store) : Store :=
  if keyGuard v.table e.key then
    match e with
    | .removed k =>
      updateListData s (listKeyOf v) (fun prev => applyListRemoved prev (keySecond k))
    | .updated _ action =>
      updateListData s (listKeyOf v) (fun prev => applyListUpdated v.options prev action)
  else s

/-- Deliver one cache notification to every mounted list view, in
subscription order. -/
def notifyViews (views : List ListView) (e : CacheEvent) (s : Store) : Store :=
  views.foldl (fun s' v => listViewOnCacheEvent v e s') s

/-- A realtime broadcast payload (`types.ts` `RealtimeEvent`).  Payloads
arrive as untyped casts from the channel, so the operation is an arbitrary
string and the record fields may be absent. -/
structure RTEvent where
  operation : String
  table : String
  record : Option Rec
  old_record : Option Rec

/-- The repository's query cache together with the mounted list views
subscribed to it. -/
structure System where
  store : Store
  views : List ListView

/-- Models `key.isPrefixOf k`: React Query filters match query keys by prefix. -/
def keyStartsWith : Key → Key → Bool
  | [], _ => true
  | _ :: _, [] => false
  | a :: p, b :: k => decide (a = b) && keyStartsWith p k

/-- The INSERT/UPDATE branches of the realtime subscription
(`repository.ts` lines 75-84): `setQueryData(recordQueryKey(table,
payload.record.id), payload.record)`; accessing `payload.record.id` on a
payload without a record is a TypeError.  The write then notifies the
query-cache subscribers (the mounted list views). -/
def applyUpsert (sys : System) (table : String) (record : Option Rec) :
    Except String System :=
  match record with
  | none => .error "TypeError: cannot read id of undefined"
  | some r =>
    let key := recordQueryKey table r.id
    let s1 := setQueryData sys.store key (.record r)
    let s2 := notifyViews sys.views (.updated key (some r)) s1
    .ok { sys with store := s2 }

/-- The DELETE branch of the realtime subscription (`repository.ts` lines
85-89): `removeQueries({ queryKey: recordQueryKey(table,
payload.old_record.id) })`.  React Query removes every cached query whose
key has that prefix and emits one "removed" notification per removed
query, which the mounted list views react to. -/
def applyDelete (sys : System) (table : String) (old_record : Option Rec) :
    Except String System :=
  match old_record with
  | none => .error "TypeError: cannot read id of undefined"
  | some r =>
    let key := recordQueryKey table r.id
    let removedEntries := sys.store.filter (fun ent => keyStartsWith key ent.1)
    let s1 := sys.store.filter (fun ent => !keyStartsWith key ent.1)
    let s2 := removedEntries.foldl
      (fun s ent => notifyViews sys.views (.removed ent.1) s) s1
    .ok { sys with store := s2 }

/-- The realtime subscription callback (`repository.ts` lines 72-90): an
if/else-if chain on `payload.operation` with no else branch — events whose
operation is none of INSERT/UPDATE/DELETE fall through and do nothing. -/
def applyRealtimeEvent (sys : System) (payload : RTEvent) : Except String System :=
  if payload.operation = "INSERT" then applyUpsert sys payload.table payload.record
  else if payload.operation = "UPDATE" then applyUpsert sys payload.table payload.record
  else if payload.operation = "DELETE" then applyDelete sys payload.table payload.old_record
  else .ok sys

/-- Events are applied strictly one at a time, in arrival order. -/
def applyRealtimeEvents (sys : System) (events : List RTEvent) :
    Except String System :=
  events.foldlM applyRealtimeEvent sys

/-- A PostgREST response: `{ data, error: null } | { data: null, error }`
(`repository.ts` line 200). -/
inductive RemoteResp (α : Type) where
  | ok (data : α)
  | err (e : String)

/-- Source `Repository.throwIfError` (`repository.ts` lines 200-203):
`if (response.error) throw response.error; return response.data`. -/
def throwIfError {α : Type} : RemoteResp α → Except String α
  | .ok d => .ok d
  | .err e => .error e

/-- Source `Repository.createRecord` (`repository.ts` lines 107-116): await the
remote insert, then `throwIfError`; the query cache is never touched. -/
def createRecord {α : Type} (store : Store) (response : RemoteResp α) :
    Except String α × Store :=
  (throwIfError response, store)

/-- Source `Repository.updateRecord` (`repository.ts` lines 121-132): await the
remote update, then `throwIfError`; the query cache is never touched. -/
def updateRecord {α : Type} (store : Store) (response : RemoteResp α) :
    Except String α × Store :=
  (throwIfError response, store)

/-- Source `Repository.deleteRecord` (`repository.ts` lines 137-147): await the
remote delete, then `throwIfError`; the query cache is never touched. -/
def deleteRecord {α : Type} (store : Store) (response : RemoteResp α) :
    Except String α × Store :=
  (throwIfError response, store)

/-- Source `records.forEach(item => setQueryData(recordQueryKey(table, item.id), item))`
(`repository.ts` lines 193-195). -/
def cacheRecords (table : String) : List Rec → Store → Store
  | [], s => s
  | item :: rest, s =>
    cacheRecords table rest (setQueryData s (recordQueryKey table item.id) (.record item))

/-- Source `Repository.getRecords` (`repository.ts` lines 184-198): run the remote
query, `throwIfError` (aborting before any cache write), then cache each
returned record individually and return the full list. -/
def getRecords (store : Store) (table : String) (response : RemoteResp (List Rec)) :
    Except String (List Rec) × Store :=
  match throwIfError response with
  | .error e => (.error e, store)
  | .ok records => (.ok records, cacheRecords table records store)

/-- The cached/missing partition loop of the `useRecordByIds` query function
(`hooks.tsx` lines 75-84): for each id in order, a cached record goes into
`itemMap` and an uncached id is pushed onto `missingIds`. -/
def partitionLoop (store : Store) (table : String) :
    List JsId → JsMap → List JsId → JsMap × List JsId
  | [], m, miss => (m, miss)
  | id :: rest, m, miss =>
    match getRecordData store table id with
    | some cached => partitionLoop store table rest (alistSet m id cached) miss
    | none => partitionLoop store table rest m (miss ++ [id])

/-- The fetched-items loop of the `useRecordByIds` query function
(`hooks.tsx` lines 88-92): each fetched item is written to the record cache
and into `itemMap`. -/
def applyFetchedLoop (table : String) : List Rec → Store → JsMap → Store × JsMap
  | [], s, m => (s, m)
  | item :: rest, s, m =>
    applyFetchedLoop table rest
      (setQueryData s (recordQueryKey table item.id) (.record item))
      (alistSet m item.id item)

/-- The observable outcome of one run of the `useRecordByIds` query
function: the returned list, the cache afterwards, how many batched remote
fetches were issued and with which ids. -/
structure FetchByIdsOut where
  result : List Rec
  store : Store
  remoteCalls : Nat
  requestedIds : List JsId
deriving DecidableEq

/-- The query function of `useRecordByIds` (`hooks.tsx` lines 69-96),
with `Repository.getRecordByIds` (`repository.ts` lines 168-179) abstracted
as `remote` (it is called at most once, only when `missingIds` is
non-empty).  The returned list is
`compact(ids.map(id => itemMap.get(id)))`. -/
def fetchByIds (store : Store) (table : String) (remote : List JsId → List Rec)
    (ids : List JsId) : FetchByIdsOut :=
  if ids.isEmpty then ⟨[], store, 0, []⟩
  else
    let pm := partitionLoop store table ids [] []
    if pm.2.isEmpty then
      ⟨ids.filterMap (fun id => alistGet pm.1 id), store, 0, []⟩
    else
      let fetched := remote pm.2
      let sm := applyFetchedLoop table fetched store pm.1
      ⟨ids.filterMap (fun id => alistGet sm.2 id), sm.1, 1, pm.2⟩

/-- The ids of `ids` that are not in the record cache — what the partition
loop accumulates as `missingIds`. -/
def missingIdsOf (store : Store) (table : String) (ids : List JsId) : List JsId :=
  ids.filter (fun id => (getRecordData store table id).isNone)

/-- JS truthiness of `!id` for `id : string | number | null`
(`hooks.tsx` line 28): `null`, the number `0` and the empty string are
falsy. -/
def jsFalsy : Option JsId → Bool
  | none => true
  | some (.num n) => decide (n = 0)
  | some (.str s) => decide (s = "")

/-- The query key of `useRecordById` (`hooks.tsx` line 26):
`recordQueryKey(table, id ?? "null")`. -/
def useRecordByIdQueryKey (table : String) (id : Option JsId) : Key :=
  recordQueryKey table (id.getD (.str "null"))

/-- The observable outcome of one run of the `useRecordById` query
function: the value it resolves with and whether the remote was called. -/
structure SingleFetch where
  result : Option Rec
  remoteCalled : Bool
deriving DecidableEq

/-- The query function of `useRecordById` (`hooks.tsx` lines 27-30):
`if (!id) return null; return await repository.getRecordById(table, id)`,
with the remote single-record fetch abstracted as `remote`. -/
def useRecordByIdQueryFn (remote : JsId → Option Rec) (id : Option JsId) :
    SingleFetch :=
  if jsFalsy id then ⟨none, false⟩
  else
    match id with
    | some i => ⟨remote i, true⟩
    | none => ⟨none, false⟩

/-- An rxjs `Subscription` at its interface boundary (spec §6: subscribing
yields an unsubscribe handle): `unsubscribe()` runs the teardown once and
marks the subscription closed; further calls are no-ops. -/
structure Subscription where
  closed : Bool
  teardownCalls : Nat
deriving DecidableEq

def Subscription.unsubscribe (s : Subscription) : Subscription :=
  if s.closed then s
  else { closed := true, teardownCalls := s.teardownCalls + 1 }

/-- The lifecycle state of a `Repository`: its (optional) realtime
subscription (`null` when `events$` was `null`, `repository.ts` line 90)
and its query cache. -/
structure RepoState where
  subscription : Option Subscription
  store : Store
deriving DecidableEq

/-- Source `Repository.destroy` (`repository.ts` lines 208-211):
`this.subscription?.unsubscribe(); this.queryClient.clear()`. -/
def destroy (s : RepoState) : RepoState :=
  { subscription := s.subscription.map Subscription.unsubscribe
    store := [] }

def sampleRec5 : Rec := ⟨.num 5, []⟩

def sampleView : ListView := ⟨"t", "main", ⟨⟨"x", fun z => z, "asc"⟩, none⟩⟩

def sampleSys : System :=
  ⟨[(recordQueryKey "t" (.num 5), .record sampleRec5),
    (recordListQueryKey "t" "main", .records [sampleRec5])], [sampleView]⟩

def sampleByIdsStore : Store := [(recordQueryKey "t" (.num 1), CacheVal.record ⟨.num 1, []⟩)]

def sampleByIdsRemote : List JsId → List Rec := fun _ => [⟨.num 2, []⟩]

def sampleByIdsIds : List JsId := [.num 1, .num 2, .num 3]

def sampleBothStore : Store :=
  [(recordQueryKey "t" (.num 1), CacheVal.record ⟨.num 1, []⟩),
   (recordQueryKey "t" (.num 2), CacheVal.record ⟨.num 2, []⟩)]

def sampleListIdSys : System :=
  ⟨[(recordQueryKey "t" (.str "list"), CacheVal.record ⟨.str "list", []⟩),
    (recordListQueryKey "t" "main", CacheVal.records [⟨.num 9, []⟩])],
   [sampleView]⟩

section AListLemmas

variable {κ α : Type} [DecidableEq κ]

theorem alistGet_set_self (m : List (κ × α)) (k : κ) (v : α) :
    alistGet (alistSet m k v) k = some v := by
  induction m with
  | nil => simp [alistSet, alistGet]
  | cons p rest ih =>
    obtain ⟨k', v'⟩ := p
    by_cases h : k' = k <;> simp [alistSet, alistGet, h, ih]

theorem alistGet_set_ne (m : List (κ × α)) (k k' : κ) (v : α) (h : k' ≠ k) :
    alistGet (alistSet m k v) k' = alistGet m k' := by
  induction m with
  | nil => simp [alistSet, alistGet, Ne.symm h]
  | cons p rest ih =>
    obtain ⟨k₀, v₀⟩ := p
    by_cases h₀ : k₀ = k
    · subst h₀
      simp [alistSet, alistGet, Ne.symm h]
    · simp [alistSet, alistGet, h₀, ih]

theorem mem_alistSet_weak (m : List (κ × α)) (k : κ) (v : α) (p : κ × α)
    (hp : p ∈ alistSet m k v) : p = (k, v) ∨ p ∈ m := by
  induction m with
  | nil =>
    simp [alistSet] at hp
    exact Or.inl hp
  | cons q rest ih =>
    obtain ⟨k₀, v₀⟩ := q
    by_cases h₀ : k₀ = k
    · subst h₀
      simp [alistSet] at hp
      rcases hp with hp | hp
      · exact Or.inl hp
      · exact Or.inr (List.mem_cons_of_mem _ hp)
    · simp [alistSet, h₀] at hp
      rcases hp with hp | hp
      · subst hp
        exact Or.inr (List.mem_cons_self _ _)
      · rcases ih hp with h | h
        · exact Or.inl h
        · exact Or.inr (List.mem_cons_of_mem _ h)

theorem mem_alistSet_of_nodup (m : List (κ × α)) (k : κ) (v : α) (p : κ × α)
    (hnd : (m.map Prod.fst).Nodup) (hp : p ∈ alistSet m k v) :
    p = (k, v) ∨ (p ∈ m ∧ p.1 ≠ k) := by
  induction m with
  | nil =>
    simp [alistSet] at hp
    exact Or.inl hp
  | cons q rest ih =>
    obtain ⟨k₀, v₀⟩ := q
    simp only [List.map_cons, List.nodup_cons] at hnd
    by_cases h₀ : k₀ = k
    · subst h₀
      simp [alistSet] at hp
      rcases hp with hp | hp
      · exact Or.inl hp
      · refine Or.inr ⟨List.mem_cons_of_mem _ hp, ?_⟩
        intro hk
        exact hnd.1 (hk ▸ List.mem_map_of_mem Prod.fst hp)
    · simp [alistSet, h₀] at hp
      rcases hp with hp | hp
      · subst hp
        exact Or.inr ⟨List.mem_cons_self _ _, h₀⟩
      · rcases ih hnd.2 hp with h | ⟨hm, hk⟩
        · exact Or.inl h
        · exact Or.inr ⟨List.mem_cons_of_mem _ hm, hk⟩

theorem self_mem_alistSet (m : List (κ × α)) (k : κ) (v : α) :
    (k, v) ∈ alistSet m k v := by
  induction m with
  | nil => simp [alistSet]
  | cons q rest ih =>
    obtain ⟨k₀, v₀⟩ := q
    by_cases h₀ : k₀ = k <;> simp [alistSet, h₀, ih]

theorem mem_keys_alistSet (m : List (κ × α)) (k : κ) (v : α) (x : κ)
    (hx : x ∈ (alistSet m k v).map Prod.fst) : x = k ∨ x ∈ m.map Prod.fst := by
  simp only [List.mem_map] at hx
  obtain ⟨p, hp, hpx⟩ := hx
  rcases mem_alistSet_weak m k v p hp with h | h
  · subst h
    exact Or.inl hpx.symm
  · exact Or.inr (hpx ▸ List.mem_map_of_mem Prod.fst h)

theorem keys_nodup_alistSet (m : List (κ × α)) (k : κ) (v : α)
    (hnd : (m.map Prod.fst).Nodup) : ((alistSet m k v).map Prod.fst).Nodup := by
  induction m with
  | nil => simp [alistSet]
  | cons q rest ih =>
    obtain ⟨k₀, v₀⟩ := q
    simp only [List.map_cons, List.nodup_cons] at hnd
    by_cases h₀ : k₀ = k
    · subst h₀
      simpa [alistSet] using hnd
    · simp only [alistSet, if_neg h₀, List.map_cons, List.nodup_cons]
      refine ⟨?_, ih hnd.2⟩
      intro hmem
      rcases mem_keys_alistSet rest k v k₀ hmem with h | h
      · exact h₀ h
      · exact hnd.1 h

theorem alistGet_eq_some_mem (m : List (κ × α)) (k : κ) (v : α)
    (h : alistGet m k = some v) : (k, v) ∈ m := by
  induction m with
  | nil => simp [alistGet] at h
  | cons q rest ih =>
    obtain ⟨k₀, v₀⟩ := q
    by_cases h₀ : k₀ = k
    · subst h₀
      simp [alistGet] at h
      simp [h]
    · simp [alistGet, h₀] at h
      exact List.mem_cons_of_mem _ (ih h)

theorem alistGet_none_of_not_mem_keys (m : List (κ × α)) (k : κ)
    (h : k ∉ m.map Prod.fst) : alistGet m k = none := by
  induction m with
  | nil => rfl
  | cons q rest ih =>
    obtain ⟨k₀, v₀⟩ := q
    simp only [List.map_cons, List.mem_cons, not_or] at h
    simp [alistGet, Ne.symm h.1, ih h.2]

theorem alistGet_filter_none (m : List (κ × α)) (k : κ) (q : κ × α → Bool)
    (h : alistGet m k = none) : alistGet (m.filter q) k = none := by
  induction m with
  | nil => rfl
  | cons p rest ih =>
    obtain ⟨k₀, v₀⟩ := p
    by_cases h₀ : k₀ = k
    · subst h₀
      simp [alistGet] at h
    · simp only [alistGet, if_neg h₀] at h
      by_cases hq : q (k₀, v₀) <;> simp [List.filter, hq, alistGet, h₀, ih h]

theorem alistGet_filter (m : List (κ × α)) (k : κ) (q : κ × α → Bool)
    (hnd : (m.map Prod.fst).Nodup) :
    alistGet (m.filter q) k =
      match alistGet m k with
      | some v => if q (k, v) then some v else none
      | none => none := by
  induction m with
  | nil => rfl
  | cons p rest ih =>
    obtain ⟨k₀, v₀⟩ := p
    simp only [List.map_cons, List.nodup_cons] at hnd
    by_cases h₀ : k₀ = k
    · subst h₀
      have hrest : alistGet rest k₀ = none :=
        alistGet_none_of_not_mem_keys rest k₀ hnd.1
      by_cases hq : q (k₀, v₀)
      · simp [List.filter, hq, alistGet]
      · simp [List.filter, hq, alistGet, alistGet_filter_none rest k₀ q hrest]
    · by_cases hq : q (k₀, v₀) <;>
        simp [List.filter, hq, alistGet, h₀, ih hnd.2]

theorem mem_alistDelete (m : List (κ × α)) (k : κ) (p : κ × α)
    (hp : p ∈ alistDelete m k) : p ∈ m ∧ p.1 ≠ k := by
  unfold alistDelete at hp
  have := List.of_mem_filter hp
  exact ⟨List.mem_of_mem_filter hp, by simpa using this⟩

theorem keys_nodup_alistDelete (m : List (κ × α)) (k : κ)
    (hnd : (m.map Prod.fst).Nodup) : ((alistDelete m k).map Prod.fst).Nodup := by
  have hsub : List.Sublist (alistDelete m k) m := List.filter_sublist m
  exact List.Nodup.sublist (List.Sublist.map Prod.fst hsub) hnd

end AListLemmas

theorem mem_insertByKey {α : Type} (key : α → Int) (a x : α) (l : List α) :
    x ∈ insertByKey key a l ↔ x = a ∨ x ∈ l := by
  induction l with
  | nil => simp [insertByKey]
  | cons b t ih =>
    by_cases h : key a ≤ key b
    · simp [insertByKey, h]
    · simp [insertByKey, h, ih]
      tauto

theorem insertByKey_perm {α : Type} (key : α → Int) (a : α) (l : List α) :
    List.Perm (insertByKey key a l) (a :: l) := by
  induction l with
  | nil => simp [insertByKey]
  | cons b t ih =>
    by_cases h : key a ≤ key b
    · simp [insertByKey, h]
    · simp only [insertByKey, if_neg h]
      exact (List.Perm.cons b ih).trans (List.Perm.swap a b t)

theorem pairwise_insertByKey {α : Type} (key : α → Int) (a : α) (l : List α)
    (h : l.Pairwise (fun x y => key x ≤ key y)) :
    (insertByKey key a l).Pairwise (fun x y => key x ≤ key y) := by
  induction l with
  | nil => simp [insertByKey]
  | cons b t ih =>
    rcases List.pairwise_cons.mp h with ⟨hb, ht⟩
    by_cases hab : key a ≤ key b
    · rw [insertByKey, if_pos hab]
      refine List.pairwise_cons.mpr ⟨?_, h⟩
      intro x hx
      rcases List.mem_cons.mp hx with hx | hx
      · exact hx ▸ hab
      · exact le_trans hab (hb x hx)
    · rw [insertByKey, if_neg hab]
      refine List.pairwise_cons.mpr ⟨?_, ih ht⟩
      intro x hx
      rcases (mem_insertByKey key a x t).mp hx with hx | hx
      · exact hx ▸ le_of_not_le hab
      · exact hb x hx

theorem sortByKey_perm {α : Type} (key : α → Int) (l : List α) :
    List.Perm (sortByKey key l) l := by
  induction l with
  | nil => simp [sortByKey]
  | cons a t ih =>
    exact (insertByKey_perm key a (sortByKey key t)).trans (List.Perm.cons a ih)

theorem mem_sortByKey {α : Type} (key : α → Int) (x : α) (l : List α) :
    x ∈ sortByKey key l ↔ x ∈ l :=
  (sortByKey_perm key l).mem_iff

theorem sortByKey_pairwise {α : Type} (key : α → Int) (l : List α) :
    (sortByKey key l).Pairwise (fun x y => key x ≤ key y) := by
  induction l with
  | nil => simp [sortByKey]
  | cons a t ih => exact pairwise_insertByKey key a (sortByKey key t) ih

/-- The splice in the "removed" branch removes exactly the entries with the
removed id when the list's ids are duplicate-free (the view invariant). -/
theorem applyListRemoved_eq_filter (l : List Rec) (x : JsId)
    (hnd : (l.map Rec.id).Nodup) :
    applyListRemoved (some l) x = some (l.filter (fun e => decide (e.id ≠ x))) := by
  induction l with
  | nil => rfl
  | cons a t ih =>
    simp only [List.map_cons, List.nodup_cons] at hnd
    by_cases ha : a.id = x
    · have ht : ∀ e ∈ t, e.id ≠ x := by
        intro e he hex
        exact hnd.1 (ha ▸ hex ▸ List.mem_map_of_mem Rec.id he)
      have hft : t.filter (fun e => decide (e.id ≠ x)) = t :=
        List.filter_eq_self.mpr (fun e he => by simpa using ht e he)
      have h1 : (a :: t).findIdx? (fun item => decide (item.id = x)) = some 0 := by
        simp [List.findIdx?_cons, ha]
      have h2 : (a :: t).filter (fun e => decide (e.id ≠ x)) = t := by
        rw [List.filter_cons, if_neg (by simp [ha]), hft]
      rw [applyListRemoved, h1, h2]
      simp
    · have step : (a :: t).findIdx? (fun item => decide (item.id = x)) =
          (t.findIdx? (fun item => decide (item.id = x))).map (· + 1) := by
        simp [List.findIdx?_cons, ha]
      have h2 : (a :: t).filter (fun e => decide (e.id ≠ x)) =
          a :: t.filter (fun e => decide (e.id ≠ x)) := by
        rw [List.filter_cons, if_pos (by simp [ha])]
      have iht := ih hnd.2
      rw [applyListRemoved] at iht
      cases hfind : t.findIdx? (fun item => decide (item.id = x)) with
      | none =>
        rw [hfind] at iht
        have hfe : t.filter (fun e => decide (e.id ≠ x)) = t :=
          (Option.some.injEq _ _).mp iht.symm
        rw [applyListRemoved, step, hfind, h2, hfe]
        rfl
      | some i =>
        rw [hfind] at iht
        have hfe : t.take i ++ t.drop (i + 1) = t.filter (fun e => decide (e.id ≠ x)) :=
          (Option.some.injEq _ _).mp iht
        rw [applyListRemoved, step, hfind, h2, ← hfe]
        simp [List.take_succ_cons, List.drop_succ_cons]

theorem buildMapLoop_inv (P : Rec → Prop) (l : List Rec) (m : JsMap)
    (hm : ∀ p ∈ m, p.1 = p.2.id ∧ P p.2) (hl : ∀ r ∈ l, P r) :
    ∀ p ∈ buildMapLoop l m, p.1 = p.2.id ∧ P p.2 := by
  induction l generalizing m with
  | nil => exact hm
  | cons a t ih =>
    refine ih (alistSet m a.id a) ?_ (fun r hr => hl r (List.mem_cons_of_mem _ hr))
    intro p hp
    rcases mem_alistSet_weak m a.id a p hp with h | h
    · subst h
      exact ⟨rfl, hl a (List.mem_cons_self _ _)⟩
    · exact hm p h

theorem buildMapLoop_keys_nodup (l : List Rec) (m : JsMap)
    (hm : (m.map Prod.fst).Nodup) : ((buildMapLoop l m).map Prod.fst).Nodup := by
  induction l generalizing m with
  | nil => exact hm
  | cons a t ih => exact ih _ (keys_nodup_alistSet m a.id a hm)

theorem buildMap_inv (prev : List Rec) :
    ∀ p ∈ buildMap prev, p.1 = p.2.id ∧ p.2 ∈ prev :=
  buildMapLoop_inv (· ∈ prev) prev [] (by simp) (fun _ h => h)

theorem buildMap_keys_nodup (prev : List Rec) :
    ((buildMap prev).map Prod.fst).Nodup :=
  buildMapLoop_keys_nodup prev [] (by simp)

/-- An id-keyed map whose pairs satisfy the key-is-id invariant and whose
keys are duplicate-free has duplicate-free value ids. -/
theorem values_ids_nodup (m : JsMap) (hinv : ∀ p ∈ m, p.1 = p.2.id)
    (hnd : (m.map Prod.fst).Nodup) : ((m.map Prod.snd).map Rec.id).Nodup := by
  have : (m.map Prod.snd).map Rec.id = m.map Prod.fst := by
    rw [List.map_map]
    exact List.map_congr_left (fun p hp => (hinv p hp).symm)
  rw [this]
  exact hnd

theorem alistSet_append_of_not_mem {κ α : Type} [DecidableEq κ]
    (m : List (κ × α)) (k : κ) (v : α) (h : k ∉ m.map Prod.fst) :
    alistSet m k v = m ++ [(k, v)] := by
  induction m with
  | nil => rfl
  | cons p rest ih =>
    obtain ⟨k₀, v₀⟩ := p
    simp only [List.map_cons, List.mem_cons, not_or] at h
    rw [alistSet, if_neg (fun hh => h.1 hh.symm), ih h.2]
    rfl

/-- Setting a key in a key-unique association list yields, up to
permutation, the new pair together with every pair under another key. -/
theorem alistSet_perm_of_nodup {κ α : Type} [DecidableEq κ]
    (m : List (κ × α)) (k : κ) (v : α) (hnd : (m.map Prod.fst).Nodup) :
    List.Perm (alistSet m k v)
      ((k, v) :: m.filter (fun p => decide (p.1 ≠ k))) := by
  induction m with
  | nil => rfl
  | cons p rest ih =>
    obtain ⟨k₀, v₀⟩ := p
    simp only [List.map_cons, List.nodup_cons] at hnd
    by_cases h₀ : k₀ = k
    · subst h₀
      have hall : ∀ p ∈ rest, (fun p : κ × α => decide (p.1 ≠ k₀)) p = true := by
        intro p hp
        simp only [decide_eq_true_eq]
        intro hk
        exact hnd.1 (hk ▸ List.mem_map_of_mem Prod.fst hp)
      rw [alistSet, if_pos rfl, List.filter_cons, if_neg (by simp),
        List.filter_eq_self.mpr hall]
    · rw [alistSet, if_neg h₀, List.filter_cons, if_pos (by simp [h₀])]
      exact ((ih hnd.2).cons (k₀, v₀)).trans (List.Perm.swap (k, v) (k₀, v₀) _)

/-- When the list's ids are duplicate-free (the view invariant), the JS
`Map` built from it is exactly the list of `(id, record)` pairs in list
order. -/
theorem buildMap_eq_of_nodup (prev : List Rec) (hnd : (prev.map Rec.id).Nodup) :
    buildMap prev = prev.map (fun x => (x.id, x)) := by
  suffices aux : ∀ (l : List Rec) (m : JsMap),
      (∀ x ∈ l, x.id ∉ m.map Prod.fst) → (l.map Rec.id).Nodup →
      buildMapLoop l m = m ++ l.map (fun x => (x.id, x)) by
    simpa using aux prev [] (by simp) hnd
  intro l
  induction l with
  | nil =>
    intro m _ _
    simp [buildMapLoop]
  | cons a t ih =>
    intro m hkeys hnd'
    simp only [List.map_cons, List.nodup_cons] at hnd'
    rw [buildMapLoop,
      alistSet_append_of_not_mem m a.id a (hkeys a (List.mem_cons_self _ _)),
      ih (m ++ [(a.id, a)]) ?keys hnd'.2]
    · simp
    case keys =>
      intro x hx
      simp only [List.map_append, List.mem_append, not_or]
      refine ⟨hkeys x (List.mem_cons_of_mem _ hx), ?_⟩
      simp only [List.map_cons, List.map_nil, List.mem_singleton]
      intro hid
      exact hnd'.1 (hid ▸ List.mem_map_of_mem Rec.id hx)

/-- The values of the `(id, record)` pair list for `prev` restricted to
keys other than `k` are exactly the records of `prev` whose id is not
`k`. -/
theorem pairValues_filter (prev : List Rec) (k : JsId) :
    ((prev.map (fun x => (x.id, x))).filter
      (fun p => decide (p.1 ≠ k))).map Prod.snd =
    prev.filter (fun x => decide (x.id ≠ k)) := by
  rw [List.filter_map, List.map_map]
  simp [Function.comp_def]

/-- Claim C3: on an UPDATE whose new record fails the view's filter, the
handler's result holds exactly the current entries with a different id —
the entry with that id is removed and every other entry preserved —
re-sorted; when the record passes the filter (or no filter is given), the
result holds exactly the new record plus every current entry with a
different id (the id-keyed map built from the current result with the
record upserted) re-derived as a stable sort by the view's
comparator/order iteratee.  The current result is assumed
id-duplicate-free, the materialized-view invariant of spec section 3. -/
theorem claim_C3 (options : ListOptions) (prev : List Rec) (r : Rec)
    (hnd : (prev.map Rec.id).Nodup) :
    (∀ f, options.filter = some f → f r = false →
      ∃ l', applyListUpdated options (some prev) (some r) = some l'
        ∧ List.Perm l' (prev.filter (fun x => decide (x.id ≠ r.id)))
        ∧ (∀ x ∈ l', x.id ≠ r.id)
        ∧ (∀ x ∈ l', x ∈ prev)
        ∧ (∀ x ∈ prev, x.id ≠ r.id → x ∈ l')
        ∧ l'.Pairwise (fun a b => sortIteratee options.sort a ≤ sortIteratee options.sort b))
    ∧ ((options.filter = none ∨ ∃ f, options.filter = some f ∧ f r = true) →
      ∃ l', applyListUpdated options (some prev) (some r) = some l'
        ∧ List.Perm l' (r :: prev.filter (fun x => decide (x.id ≠ r.id)))
        ∧ r ∈ l'
        ∧ (∀ x ∈ l', x = r ∨ (x ∈ prev ∧ x.id ≠ r.id))
        ∧ (∀ x ∈ prev, x.id ≠ r.id → x ∈ l')
        ∧ (l'.map Rec.id).Nodup
        ∧ l'.Pairwise (fun a b => sortIteratee options.sort a ≤ sortIteratee options.sort b)) := by
  have hbm : buildMap prev = prev.map (fun x => (x.id, x)) :=
    buildMap_eq_of_nodup prev hnd
  constructor
  · intro f hf hfr
    have hvals : (alistDelete (buildMap prev) r.id).map Prod.snd =
        prev.filter (fun x => decide (x.id ≠ r.id)) := by
      unfold alistDelete
      rw [hbm]
      exact pairValues_filter prev r.id
    have hperm : List.Perm
        (sortByKey (sortIteratee options.sort)
          ((alistDelete (buildMap prev) r.id).map Prod.snd))
        (prev.filter (fun x => decide (x.id ≠ r.id))) := by
      rw [← hvals]
      exact sortByKey_perm _ _
    refine ⟨sortByKey (sortIteratee options.sort)
      ((alistDelete (buildMap prev) r.id).map Prod.snd), ?_, hperm, ?_, ?_, ?_, ?_⟩
    · simp [applyListUpdated, hf, hfr]
    · intro x hx
      have := hperm.mem_iff.mp hx
      have hpass := List.of_mem_filter this
      simpa using hpass
    · intro x hx
      exact List.mem_of_mem_filter (hperm.mem_iff.mp hx)
    · intro x hx hxid
      exact hperm.mem_iff.mpr (List.mem_filter.mpr ⟨hx, by simpa using hxid⟩)
    · exact sortByKey_pairwise _ _
  · intro hpass
    have hbranch : applyListUpdated options (some prev) (some r) =
        some (sortByKey (sortIteratee options.sort)
          ((alistSet (buildMap prev) r.id r).map Prod.snd)) := by
      rcases hpass with h | ⟨f, hf, hfr⟩
      · simp [applyListUpdated, h]
      · simp [applyListUpdated, hf, hfr]
    have hfv : ((buildMap prev).filter (fun p => decide (p.1 ≠ r.id))).map Prod.snd =
        prev.filter (fun x => decide (x.id ≠ r.id)) := by
      rw [hbm]
      exact pairValues_filter prev r.id
    have hperm : List.Perm
        (sortByKey (sortIteratee options.sort)
          ((alistSet (buildMap prev) r.id r).map Prod.snd))
        (r :: prev.filter (fun x => decide (x.id ≠ r.id))) := by
      have h1 := sortByKey_perm (sortIteratee options.sort)
        ((alistSet (buildMap prev) r.id r).map Prod.snd)
      have h2 := (alistSet_perm_of_nodup (buildMap prev) r.id r
        (buildMap_keys_nodup prev)).map Prod.snd
      rw [List.map_cons, hfv] at h2
      exact h1.trans h2
    refine ⟨_, hbranch, hperm, ?_, ?_, ?_, ?_, ?_⟩
    · exact hperm.mem_iff.mpr (List.mem_cons_self _ _)
    · intro x hx
      rcases List.mem_cons.mp (hperm.mem_iff.mp hx) with h | h
      · exact Or.inl h
      · exact Or.inr ⟨List.mem_of_mem_filter h, by simpa using List.of_mem_filter h⟩
    · intro x hx hxid
      exact hperm.mem_iff.mpr (List.mem_cons_of_mem _
        (List.mem_filter.mpr ⟨hx, by simpa using hxid⟩))
    · have hinv : ∀ p ∈ alistSet (buildMap prev) r.id r, p.1 = p.2.id := by
        intro p hp
        rcases mem_alistSet_weak _ r.id r p hp with h | h
        · rw [h]
        · exact (buildMap_inv prev p h).1
      have hvals := values_ids_nodup _ hinv
        (keys_nodup_alistSet (buildMap prev) r.id r (buildMap_keys_nodup prev))
      exact (((sortByKey_perm (sortIteratee options.sort) _).map Rec.id).symm).nodup hvals
    · exact sortByKey_pairwise _ _

/-- Witness for claim C3: the spec's own example — a view filtered on
`status == 1` ("active") containing record id 9, receiving an UPDATE that
sets `status` to 0 ("closed") — loses the id-9 entry and keeps nothing
else, since nothing else was there. -/
theorem claim_C3_witness :
    (([Rec.mk (.num 9) [("status", 1)]].map Rec.id).Nodup
     ∧ (fun (x : Rec) => decide (fieldOf x "status" = 1)) (Rec.mk (.num 9) [("status", 0)]) = false)
    ∧ ∃ l', applyListUpdated
        ⟨⟨"status", fun v => v, "asc"⟩, some (fun x => decide (fieldOf x "status" = 1))⟩
        (some [Rec.mk (.num 9) [("status", 1)]]) (some (Rec.mk (.num 9) [("status", 0)])) = some l'
      ∧ List.Perm l' ([Rec.mk (.num 9) [("status", 1)]].filter
          (fun x => decide (x.id ≠ (Rec.mk (.num 9) [("status", 0)]).id)))
      ∧ (∀ x ∈ l', x.id ≠ (Rec.mk (.num 9) [("status", 0)]).id)
      ∧ (∀ x ∈ l', x ∈ [Rec.mk (.num 9) [("status", 1)]])
      ∧ (∀ x ∈ [Rec.mk (.num 9) [("status", 1)]],
          x.id ≠ (Rec.mk (.num 9) [("status", 0)]).id → x ∈ l')
      ∧ l'.Pairwise (fun a b =>
          sortIteratee ⟨"status", fun v => v, "asc"⟩ a ≤ sortIteratee ⟨"status", fun v => v, "asc"⟩ b) :=
  ⟨⟨by decide, by decide⟩,
   (claim_C3 ⟨⟨"status", fun v => v, "asc"⟩, some (fun x => decide (fieldOf x "status" = 1))⟩
      [Rec.mk (.num 9) [("status", 1)]] (Rec.mk (.num 9) [("status", 0)]) (by decide)).1
      (fun x => decide (fieldOf x "status" = 1)) rfl (by decide)⟩

theorem listKeyOf_ne_recordKey (v : ListView) (t : String) (i : JsId) :
    listKeyOf v ≠ recordQueryKey t i := by
  simp [listKeyOf, recordListQueryKey, recordQueryKey]

theorem listViewOnCacheEvent_guard_false (v : ListView) (e : CacheEvent) (s : Store)
    (hg : keyGuard v.table e.key = false) : listViewOnCacheEvent v e s = s := by
  simp [listViewOnCacheEvent, hg]


theorem updateListData_lookup_other (s : Store) (K K' : Key)
    (f : Option (List Rec) → Option (List Rec)) (h : K' ≠ K) :
    getQueryData (updateListData s K f) K' = getQueryData s K' := by
  unfold updateListData
  cases f (getListData s K) with
  | none => rfl
  | some rs => exact alistGet_set_ne s K K' (.records rs) h

theorem updateListData_lookup_self (s : Store) (K : Key)
    (f : Option (List Rec) → Option (List Rec)) :
    getQueryData (updateListData s K f) K =
      match f (getListData s K) with
      | none => getQueryData s K
      | some rs => some (.records rs) := by
  unfold updateListData
  cases f (getListData s K) with
  | none => rfl
  | some rs => exact alistGet_set_self s K (.records rs)

theorem listViewOnCacheEvent_removed_eq (v : ListView) (k : Key) (s : Store)
    (hg : keyGuard v.table k = true) :
    listViewOnCacheEvent v (.removed k) s =
      updateListData s (listKeyOf v) (fun prev => applyListRemoved prev (keySecond k)) := by
  simp [listViewOnCacheEvent, CacheEvent.key, hg]

theorem listViewOnCacheEvent_updated_eq (v : ListView) (k : Key) (act : Option Rec)
    (s : Store) (hg : keyGuard v.table k = true) :
    listViewOnCacheEvent v (.updated k act) s =
      updateListData s (listKeyOf v) (fun prev => applyListUpdated v.options prev act) := by
  simp [listViewOnCacheEvent, CacheEvent.key, hg]

theorem listViewOnCacheEvent_lookup_other (v : ListView) (e : CacheEvent) (s : Store)
    (K : Key) (hK : K ≠ listKeyOf v) :
    getQueryData (listViewOnCacheEvent v e s) K = getQueryData s K := by
  by_cases hg : keyGuard v.table e.key
  · cases e with
    | removed k =>
      rw [listViewOnCacheEvent_removed_eq v k s hg]
      exact updateListData_lookup_other s (listKeyOf v) K _ hK
    | updated k act =>
      rw [listViewOnCacheEvent_updated_eq v k act s hg]
      exact updateListData_lookup_other s (listKeyOf v) K _ hK
  · rw [listViewOnCacheEvent_guard_false v e s (by simpa using hg)]

theorem notifyViews_lookup_frame (views : List ListView) (e : CacheEvent)
    (s : Store) (K : Key)
    (h : ∀ v ∈ views, listKeyOf v = K → keyGuard v.table e.key = false) :
    getQueryData (notifyViews views e s) K = getQueryData s K := by
  induction views generalizing s with
  | nil => rfl
  | cons v rest ih =>
    have step : getQueryData (listViewOnCacheEvent v e s) K = getQueryData s K := by
      by_cases hK : K = listKeyOf v
      · rw [listViewOnCacheEvent_guard_false v e s (h v (List.mem_cons_self _ _) hK.symm)]
      · exact listViewOnCacheEvent_lookup_other v e s K hK
    have tail := ih (listViewOnCacheEvent v e s)
      (fun w hw => h w (List.mem_cons_of_mem _ hw))
    exact tail.trans step

theorem notifyViews_eq_of_all_guard_false (views : List ListView) (e : CacheEvent)
    (s : Store) (h : ∀ v ∈ views, keyGuard v.table e.key = false) :
    notifyViews views e s = s := by
  induction views generalizing s with
  | nil => rfl
  | cons v rest ih =>
    have step := listViewOnCacheEvent_guard_false v e s (h v (List.mem_cons_self _ _))
    show notifyViews rest e (listViewOnCacheEvent v e s) = s
    rw [step]
    exact ih s (fun w hw => h w (List.mem_cons_of_mem _ hw))

theorem getListData_congr (s s' : Store) (K : Key)
    (h : getQueryData s K = getQueryData s' K) :
    getListData s K = getListData s' K := by
  unfold getListData
  rw [h]

theorem listViewOnCacheEvent_lookup_congr (v : ListView) (e : CacheEvent)
    (s s' : Store)
    (h : getQueryData s (listKeyOf v) = getQueryData s' (listKeyOf v)) :
    getQueryData (listViewOnCacheEvent v e s) (listKeyOf v) =
      getQueryData (listViewOnCacheEvent v e s') (listKeyOf v) := by
  have hd : getListData s (listKeyOf v) = getListData s' (listKeyOf v) :=
    getListData_congr s s' (listKeyOf v) h
  by_cases hg : keyGuard v.table e.key
  · cases e with
    | removed k =>
      rw [listViewOnCacheEvent_removed_eq v k s hg,
        listViewOnCacheEvent_removed_eq v k s' hg,
        updateListData_lookup_self, updateListData_lookup_self, hd]
      cases applyListRemoved (getListData s' (listKeyOf v)) (keySecond k) with
      | none => exact h
      | some rs => rfl
    | updated k act =>
      rw [listViewOnCacheEvent_updated_eq v k act s hg,
        listViewOnCacheEvent_updated_eq v k act s' hg,
        updateListData_lookup_self, updateListData_lookup_self, hd]
      cases applyListUpdated v.options (getListData s' (listKeyOf v)) act with
      | none => exact h
      | some rs => rfl
  · rw [listViewOnCacheEvent_guard_false v e s (by simpa using hg),
      listViewOnCacheEvent_guard_false v e s' (by simpa using hg)]
    exact h

theorem notifyViews_lookup_at (views : List ListView) (v : ListView)
    (hv : v ∈ views) (hnd : (views.map listKeyOf).Nodup) (e : CacheEvent) (s : Store) :
    getQueryData (notifyViews views e s) (listKeyOf v) =
      getQueryData (listViewOnCacheEvent v e s) (listKeyOf v) := by
  obtain ⟨l1, l2, rfl⟩ := List.append_of_mem hv
  have hnd' := hnd
  rw [List.map_append, List.map_cons, List.nodup_append] at hnd'
  have hK1 : ∀ w ∈ l1, listKeyOf w ≠ listKeyOf v := by
    intro w hw heq
    have hmem : listKeyOf w ∈ List.map listKeyOf l1 := List.mem_map_of_mem listKeyOf hw
    exact hnd'.2.2 hmem (by rw [heq]; exact List.mem_cons_self _ _)
  have hK2 : ∀ w ∈ l2, listKeyOf w ≠ listKeyOf v := by
    intro w hw heq
    exact (List.nodup_cons.mp hnd'.2.1).1 (by rw [← heq]; exact List.mem_map_of_mem listKeyOf hw)
  show getQueryData (List.foldl (fun s' w => listViewOnCacheEvent w e s') s (l1 ++ v :: l2))
      (listKeyOf v) = _
  rw [List.foldl_append, List.foldl_cons]
  have step1 : getQueryData (List.foldl (fun s' w => listViewOnCacheEvent w e s') s l1)
      (listKeyOf v) = getQueryData s (listKeyOf v) :=
    notifyViews_lookup_frame l1 e s (listKeyOf v)
      (fun w hw heq => absurd heq (hK1 w hw))
  have step3 := notifyViews_lookup_frame l2 e
    (listViewOnCacheEvent v e (List.foldl (fun s' w => listViewOnCacheEvent w e s') s l1))
    (listKeyOf v) (fun w hw heq => absurd heq (hK2 w hw))
  exact step3.trans (listViewOnCacheEvent_lookup_congr v e _ s step1)

theorem keyStartsWith_refl (k : Key) : keyStartsWith k k = true := by
  induction k with
  | nil => rfl
  | cons a rest ih => simp [keyStartsWith, ih]

theorem keyStartsWith_record_shape (t : String) (i : JsId) (k : Key)
    (h : keyStartsWith (recordQueryKey t i) k = true) :
    ∃ rest, k = .str t :: i :: rest := by
  match k with
  | [] => simp [recordQueryKey, keyStartsWith] at h
  | [x] => simp [recordQueryKey, keyStartsWith] at h
  | x :: y :: rest =>
    simp only [recordQueryKey, keyStartsWith, Bool.and_eq_true, decide_eq_true_eq] at h
    exact ⟨rest, by rw [h.1, h.2.1]⟩

theorem keyGuard_long_false (tb : String) (a b c : JsId) (rest : List JsId) :
    keyGuard tb (a :: b :: c :: rest) = false := rfl

theorem keyGuard_record_self (t : String) (i : JsId) :
    keyGuard t (recordQueryKey t i) = true := by
  simp [keyGuard, recordQueryKey]

theorem keyGuard_record_ne (t tb : String) (i : JsId) (h : t ≠ tb) :
    keyGuard tb (recordQueryKey t i) = false := by
  simp [keyGuard, recordQueryKey]
  exact fun hh => absurd hh h

theorem keyStartsWith_record_list (t tb nm : String) (i : JsId) :
    keyStartsWith (recordQueryKey t i) (recordListQueryKey tb nm) =
      (decide (t = tb) && decide (i = JsId.str "list")) := by
  simp [keyStartsWith, recordQueryKey, recordListQueryKey]

theorem filter_lookup_preserved (m : Store) (K : Key) (q : Key × CacheVal → Bool)
    (hnd : (m.map Prod.fst).Nodup) (hq : ∀ v, q (K, v) = true) :
    getQueryData (m.filter q) K = getQueryData m K := by
  show alistGet (m.filter q) K = alistGet m K
  rw [alistGet_filter m K q hnd]
  cases h : alistGet m K with
  | none => rfl
  | some v => simp [hq v]

theorem foldl_notify_removed_id (entries : List (Key × CacheVal))
    (views : List ListView) (s : Store)
    (h : ∀ ent ∈ entries, ∀ s' : Store, notifyViews views (.removed ent.1) s' = s') :
    entries.foldl (fun s' ent => notifyViews views (.removed ent.1) s') s = s := by
  induction entries generalizing s with
  | nil => rfl
  | cons ent rest ih =>
    rw [List.foldl_cons, h ent (List.mem_cons_self _ _) s]
    exact ih s (fun e he => h e (List.mem_cons_of_mem _ he))

/-- Collapsing the DELETE branch: when the record entry is present (and the
store's keys are unique), removing by the record-key prefix boils down to
one filtered store plus a single "removed" notification for the record key
— every other removed entry has a longer key, which no list-view guard
accepts. -/
theorem applyDelete_eq (sys : System) (table : String) (r : Rec) (cv : CacheVal)
    (hnodup : (sys.store.map Prod.fst).Nodup)
    (hpresent : getQueryData sys.store (recordQueryKey table r.id) = some cv) :
    applyDelete sys table (some r) = .ok (System.mk
      (notifyViews sys.views (.removed (recordQueryKey table r.id))
        (sys.store.filter (fun ent =>
          !keyStartsWith (recordQueryKey table r.id) ent.1)))
      sys.views) := by
  have hmain : (sys.store.filter (fun ent =>
        keyStartsWith (recordQueryKey table r.id) ent.1)).foldl
      (fun s ent => notifyViews sys.views (.removed ent.1) s)
      (sys.store.filter (fun ent =>
        !keyStartsWith (recordQueryKey table r.id) ent.1)) =
      notifyViews sys.views (.removed (recordQueryKey table r.id))
        (sys.store.filter (fun ent =>
          !keyStartsWith (recordQueryKey table r.id) ent.1)) := by
    set key := recordQueryKey table r.id with hkey
    set E := sys.store.filter (fun ent => keyStartsWith key ent.1) with hE
    have hmem : (key, cv) ∈ E := by
      rw [hE]
      exact List.mem_filter.mpr ⟨alistGet_eq_some_mem _ _ _ hpresent, keyStartsWith_refl key⟩
    have hndE : (E.map Prod.fst).Nodup := by
      have hsub : List.Sublist E sys.store := by
        rw [hE]; exact List.filter_sublist sys.store
      exact List.Nodup.sublist (List.Sublist.map Prod.fst hsub) hnodup
    obtain ⟨L1, L2, hsplit⟩ := List.append_of_mem hmem
    have hnd' : ((L1 ++ (key, cv) :: L2).map Prod.fst).Nodup := by
      rw [← hsplit]; exact hndE
    rw [List.map_append, List.map_cons, List.nodup_append] at hnd'
    have hnoopKey : ∀ ent : Key × CacheVal, ent ∈ L1 ∨ ent ∈ L2 →
        ∀ s' : Store, notifyViews sys.views (.removed ent.1) s' = s' := by
      intro ent hent s'
      have hentE : ent ∈ E := by
        rw [hsplit]
        rcases hent with h | h
        · exact List.mem_append.mpr (Or.inl h)
        · exact List.mem_append.mpr (Or.inr (List.mem_cons_of_mem _ h))
      have hpre : keyStartsWith key ent.1 = true := by
        have hf := List.mem_filter.mp (hE ▸ hentE)
        exact hf.2
      have hne : ent.1 ≠ key := by
        intro heq
        rcases hent with h | h
        · have h1 : key ∈ List.map Prod.fst L1 := by
            rw [← heq]; exact List.mem_map_of_mem Prod.fst h
          exact hnd'.2.2 h1 (List.mem_cons_self _ _)
        · have h2 : key ∈ List.map Prod.fst L2 := by
            rw [← heq]; exact List.mem_map_of_mem Prod.fst h
          exact (List.nodup_cons.mp hnd'.2.1).1 h2
      obtain ⟨rest, hrest⟩ := keyStartsWith_record_shape table r.id ent.1 hpre
      cases rest with
      | nil => exact absurd (by rw [hrest]; rfl) hne
      | cons c rest' =>
        refine notifyViews_eq_of_all_guard_false _ _ _ ?_
        intro v _
        show keyGuard v.table (CacheEvent.removed ent.1).key = false
        rw [CacheEvent.key, hrest]
        exact keyGuard_long_false v.table _ _ _ _
    rw [hsplit, List.foldl_append, List.foldl_cons,
      foldl_notify_removed_id L1 sys.views _ (fun e he => hnoopKey e (Or.inl he)),
      foldl_notify_removed_id L2 sys.views _ (fun e he => hnoopKey e (Or.inr he))]
  simp only [applyDelete]
  rw [hmain]

theorem listKeyOf_table_eq (w v : ListView) (h : listKeyOf w = listKeyOf v) :
    w.table = v.table := by
  simp [listKeyOf, recordListQueryKey] at h
  exact h.1

theorem applyUpsert_eq (sys : System) (table : String) (r : Rec) :
    applyUpsert sys table (some r) = .ok (System.mk
      (notifyViews sys.views (.updated (recordQueryKey table r.id) (some r))
        (setQueryData sys.store (recordQueryKey table r.id) (.record r)))
      sys.views) := rfl

theorem applyUpsert_lookup_record (sys : System) (table : String) (r : Rec) :
    getQueryData (notifyViews sys.views (.updated (recordQueryKey table r.id) (some r))
      (setQueryData sys.store (recordQueryKey table r.id) (.record r)))
      (recordQueryKey table r.id) = some (.record r) := by
  rw [notifyViews_lookup_frame _ _ _ _
    (fun v _ heq => absurd heq (listKeyOf_ne_recordKey v table r.id))]
  exact alistGet_set_self sys.store (recordQueryKey table r.id) (.record r)

/-- Claim C2 counterexample: an event with the unrecognized operation tag
`"TRUNCATE"` does not raise an error — the handler returns successfully
with the state untouched, refuting "fails loudly on malformed events". -/
theorem claim_C2_counterexample :
    applyRealtimeEvent ⟨[], []⟩ ⟨"TRUNCATE", "t", none, none⟩ =
      .ok (⟨[], []⟩ : System) := rfl

/-- Claim C2 (amended): the change-event handler silently ignores any event
whose operation tag is none of INSERT/UPDATE/DELETE (a no-op, not an
error), and it never fails on a well-formed event (one whose tagged record
fields are present). -/
theorem claim_C2_amended (sys : System) (payload : RTEvent) :
    (payload.operation ≠ "INSERT" → payload.operation ≠ "UPDATE" →
      payload.operation ≠ "DELETE" → applyRealtimeEvent sys payload = .ok sys)
    ∧ (((payload.operation = "INSERT" ∨ payload.operation = "UPDATE") →
          payload.record.isSome) →
       (payload.operation = "DELETE" → payload.old_record.isSome) →
       ∃ sys', applyRealtimeEvent sys payload = .ok sys') := by
  constructor
  · intro h1 h2 h3
    simp [applyRealtimeEvent, h1, h2, h3]
  · intro hrec hold
    unfold applyRealtimeEvent
    by_cases hI : payload.operation = "INSERT"
    · obtain ⟨r, hr⟩ := Option.isSome_iff_exists.mp (hrec (Or.inl hI))
      rw [if_pos hI, hr, applyUpsert_eq]
      exact ⟨_, rfl⟩
    · by_cases hU : payload.operation = "UPDATE"
      · obtain ⟨r, hr⟩ := Option.isSome_iff_exists.mp (hrec (Or.inr hU))
        rw [if_neg hI, if_pos hU, hr, applyUpsert_eq]
        exact ⟨_, rfl⟩
      · by_cases hD : payload.operation = "DELETE"
        · obtain ⟨r, hr⟩ := Option.isSome_iff_exists.mp (hold hD)
          rw [if_neg hI, if_neg hU, if_pos hD, hr]
          exact ⟨_, rfl⟩
        · rw [if_neg hI, if_neg hU, if_neg hD]
          exact ⟨sys, rfl⟩

/-- Witness for the amended claim C2: a well-formed DELETE event is handled
without error, and an event tagged `"TRUNCATE"` is silently ignored. -/
theorem claim_C2_amended_witness :
    (applyRealtimeEvent sampleSys ⟨"TRUNCATE", "t", none, none⟩ = .ok sampleSys)
    ∧ ∃ sys', applyRealtimeEvent sampleSys
        ⟨"DELETE", "t", none, some sampleRec5⟩ = .ok sys' :=
  ⟨(claim_C2_amended sampleSys ⟨"TRUNCATE", "t", none, none⟩).1
      (by decide) (by decide) (by decide),
   (claim_C2_amended sampleSys ⟨"DELETE", "t", none, some sampleRec5⟩).2
      (by intro h; cases h <;> simp_all) (fun _ => rfl)⟩

/-- Claim C5: change events are applied one at a time in arrival order with
last-write-wins semantics — an INSERT or UPDATE stores the event's full new
record snapshot under `(table, id)` (full replace), so an UPDATE arriving
after a DELETE for the same id reinstates the record in the store. -/
theorem claim_C5 :
    (∀ (sys : System) (payload : RTEvent) (r : Rec),
      (payload.operation = "INSERT" ∨ payload.operation = "UPDATE") →
      payload.record = some r →
      ∃ sys', applyRealtimeEvent sys payload = .ok sys'
        ∧ getQueryData sys'.store (recordQueryKey payload.table r.id) =
            some (.record r))
    ∧ (∀ (sys : System) (table : String) (rOld rNew : Rec),
      ∃ sys', applyRealtimeEvents sys
          [⟨"DELETE", table, none, some rOld⟩,
           ⟨"UPDATE", table, some rNew, some rOld⟩] = .ok sys'
        ∧ getQueryData sys'.store (recordQueryKey table rNew.id) =
            some (.record rNew)) := by
  have hup : ∀ (sys : System) (table : String) (r : Rec),
      ∃ sys', applyUpsert sys table (some r) = .ok sys'
        ∧ getQueryData sys'.store (recordQueryKey table r.id) = some (.record r) := by
    intro sys table r
    exact ⟨_, applyUpsert_eq sys table r, applyUpsert_lookup_record sys table r⟩
  constructor
  · intro sys payload r hop hrec
    rcases hop with h | h
    · obtain ⟨sys', h1, h2⟩ := hup sys payload.table r
      refine ⟨sys', ?_, h2⟩
      rw [applyRealtimeEvent, if_pos h, hrec]
      exact h1
    · obtain ⟨sys', h1, h2⟩ := hup sys payload.table r
      refine ⟨sys', ?_, h2⟩
      by_cases hI : payload.operation = "INSERT"
      · rw [applyRealtimeEvent, if_pos hI, hrec]
        exact h1
      · rw [applyRealtimeEvent, if_neg hI, if_pos h, hrec]
        exact h1
  · intro sys table rOld rNew
    have hdel : ∃ sys₁, applyRealtimeEvent sys ⟨"DELETE", table, none, some rOld⟩ = .ok sys₁ := by
      rw [applyRealtimeEvent]
      norm_num
      exact ⟨_, rfl⟩
    obtain ⟨sys₁, h1⟩ := hdel
    obtain ⟨sys₂, h2, h3⟩ := hup sys₁ table rNew
    refine ⟨sys₂, ?_, h3⟩
    show ([⟨"DELETE", table, none, some rOld⟩,
           ⟨"UPDATE", table, some rNew, some rOld⟩] : List RTEvent).foldlM
      applyRealtimeEvent sys = .ok sys₂
    have hstep : applyRealtimeEvent sys₁ ⟨"UPDATE", table, some rNew, some rOld⟩ = .ok sys₂ := by
      show applyUpsert sys₁ table (some rNew) = .ok sys₂
      exact h2
    rw [List.foldlM_cons, h1]
    show (List.foldlM applyRealtimeEvent sys₁
      [⟨"UPDATE", table, some rNew, some rOld⟩] : Except String System) = .ok sys₂
    rw [List.foldlM_cons, hstep]
    rfl

/-- Witness for claim C5: an UPDATE event for id 5 stores the full snapshot
under `("t", 5)`. -/
theorem claim_C5_witness :
    ∃ sys', applyRealtimeEvent sampleSys
        ⟨"UPDATE", "t", some sampleRec5, some sampleRec5⟩ = .ok sys'
      ∧ getQueryData sys'.store (recordQueryKey "t" sampleRec5.id) =
          some (.record sampleRec5) :=
  claim_C5.1 sampleSys ⟨"UPDATE", "t", some sampleRec5, some sampleRec5⟩ sampleRec5
    (Or.inr rfl) rfl

/-- Claim C4 counterexample: the claim as stated is false when the deleted
id is the literal string "list".  Here the record entry `("t","list")` is
present and the view's result `[record 9]` does not contain that id, so
the claim demands the view stay unchanged — but `removeQueries` matches
query keys by prefix, so the filter `["t","list"]` also deletes the view
entry `["t","list","main"]` wholesale: after the event the view's
materialized result is gone entirely. -/
theorem claim_C4_counterexample :
    getQueryData sampleListIdSys.store (recordQueryKey "t" (JsId.str "list")) =
      some (.record ⟨.str "list", []⟩)
    ∧ getListData sampleListIdSys.store (listKeyOf sampleView) = some [⟨.num 9, []⟩]
    ∧ (∀ x ∈ [(⟨.num 9, []⟩ : Rec)], x.id ≠ JsId.str "list")
    ∧ applyRealtimeEvent sampleListIdSys
        ⟨"DELETE", "t", none, some ⟨.str "list", []⟩⟩ = .ok ⟨[], [sampleView]⟩
    ∧ getListData ([] : Store) (listKeyOf sampleView) = none := by
  refine ⟨rfl, rfl, by decide, ?_, rfl⟩
  rfl

/-- Claim C4 (amended): restricted to deleted ids other than the literal
string "list" — for that one id, React Query's prefix-matching
`removeQueries` also deletes every `(table, "list", name)` view entry
wholesale instead of splicing (see the counterexample).  With that
exclusion, and under the faithful reachable-state side conditions that the
record entry was present (so a removal notification fires), the store's
keys are unique, and the mounted views occupy distinct cache slots: a
DELETE event for id X removes the single-record cache entry `(table, X)`,
every list view for that table has the entry with id X spliced out of its
materialized result (a view whose result does not contain X keeps its
result unchanged), and views for other tables are untouched. -/
theorem claim_C4 (sys : System) (table : String) (r : Rec) (cv : CacheVal)
    (hnodup : (sys.store.map Prod.fst).Nodup)
    (hpresent : getQueryData sys.store (recordQueryKey table r.id) = some cv)
    (hid : r.id ≠ JsId.str "list")
    (hviews : (sys.views.map listKeyOf).Nodup) :
    ∃ sys', applyRealtimeEvent sys ⟨"DELETE", table, none, some r⟩ = .ok sys'
      ∧ getQueryData sys'.store (recordQueryKey table r.id) = none
      ∧ (∀ v ∈ sys.views, v.table = table → ∀ l,
          getListData sys.store (listKeyOf v) = some l → (l.map Rec.id).Nodup →
          getListData sys'.store (listKeyOf v) =
            some (l.filter (fun x => decide (x.id ≠ r.id))))
      ∧ (∀ v ∈ sys.views, v.table ≠ table →
          getListData sys'.store (listKeyOf v) = getListData sys.store (listKeyOf v)) := by
  have hdel := applyDelete_eq sys table r cv hnodup hpresent
  set key := recordQueryKey table r.id with hkey
  set s1 := sys.store.filter (fun ent => !keyStartsWith key ent.1) with hs1
  set sys' : System := System.mk
    (notifyViews sys.views (.removed key) s1) sys.views with hsys'
  have hevent : applyRealtimeEvent sys ⟨"DELETE", table, none, some r⟩ = .ok sys' := by
    show applyDelete sys table (some r) = .ok sys'
    exact hdel
  refine ⟨sys', hevent, ?_, ?_, ?_⟩
  · -- the record entry is gone
    have hframe : getQueryData sys'.store key = getQueryData s1 key := by
      show getQueryData (notifyViews sys.views (.removed key) s1) key = _
      exact notifyViews_lookup_frame sys.views _ s1 key
        (fun v _ heq => absurd heq (listKeyOf_ne_recordKey v table r.id))
    rw [hframe]
    show alistGet s1 key = none
    rw [hs1, alistGet_filter sys.store key _ hnodup]
    have hp : alistGet sys.store key = some cv := hpresent
    rw [hp]
    simp [keyStartsWith_refl]
  · -- views of this table splice out the deleted id
    intro v hv hvt l hl hlnd
    have hpred : ∀ val : CacheVal,
        (fun ent : Key × CacheVal => !keyStartsWith key ent.1) (listKeyOf v, val) = true := by
      intro val
      have hfalse : keyStartsWith key (listKeyOf v) = false := by
        rw [hkey]
        show keyStartsWith (recordQueryKey table r.id)
          (recordListQueryKey v.table v.listName) = false
        rw [keyStartsWith_record_list]
        simp [hid]
      simp [hfalse]
    have hs1look : getQueryData s1 (listKeyOf v) = getQueryData sys.store (listKeyOf v) := by
      rw [hs1]
      exact filter_lookup_preserved sys.store (listKeyOf v) _ hnodup hpred
    have hs1list : getListData s1 (listKeyOf v) = some l := by
      rw [getListData_congr s1 sys.store (listKeyOf v) hs1look]
      exact hl
    have hat : getQueryData sys'.store (listKeyOf v) =
        getQueryData (listViewOnCacheEvent v (.removed key) s1) (listKeyOf v) := by
      show getQueryData (notifyViews sys.views (.removed key) s1) (listKeyOf v) = _
      exact notifyViews_lookup_at sys.views v hv hviews (.removed key) s1
    have hg : keyGuard v.table key = true := by
      rw [hkey, hvt]
      exact keyGuard_record_self table r.id
    have hg' : keyGuard v.table (CacheEvent.removed key).key = true := hg
    rw [listViewOnCacheEvent_removed_eq v key s1 hg', updateListData_lookup_self] at hat
    have hsecond : keySecond key = r.id := by rw [hkey]; rfl
    rw [hs1list] at hat
    have happ : applyListRemoved (some l) (keySecond key) =
        some (l.filter (fun x => decide (x.id ≠ r.id))) := by
      rw [hsecond]
      exact applyListRemoved_eq_filter l r.id hlnd
    show getListData sys'.store (listKeyOf v) = _
    unfold getListData
    show (match getQueryData sys'.store (listKeyOf v) with
      | some (.records rs) => some rs
      | _ => none) = _
    rw [hat]
    simp only [happ]
  · -- views of other tables are untouched
    intro v hv hvt
    have hframe : getQueryData sys'.store (listKeyOf v) = getQueryData s1 (listKeyOf v) := by
      show getQueryData (notifyViews sys.views (.removed key) s1) (listKeyOf v) = _
      refine notifyViews_lookup_frame sys.views _ s1 (listKeyOf v) ?_
      intro w _ heq
      have hwt : w.table = v.table := listKeyOf_table_eq w v heq
      show keyGuard w.table (CacheEvent.removed key).key = false
      show keyGuard w.table key = false
      rw [hkey, hwt]
      exact keyGuard_record_ne table v.table r.id (Ne.symm hvt)
    have hpred : ∀ val : CacheVal,
        (fun ent : Key × CacheVal => !keyStartsWith key ent.1) (listKeyOf v, val) = true := by
      intro val
      have hfalse : keyStartsWith key (listKeyOf v) = false := by
        rw [hkey]
        show keyStartsWith (recordQueryKey table r.id)
          (recordListQueryKey v.table v.listName) = false
        rw [keyStartsWith_record_list]
        simp
        intro h
        exact absurd h.symm hvt
      simp [hfalse]
    have hs1look : getQueryData s1 (listKeyOf v) = getQueryData sys.store (listKeyOf v) := by
      rw [hs1]
      exact filter_lookup_preserved sys.store (listKeyOf v) _ hnodup hpred
    exact getListData_congr _ _ _ (hframe.trans hs1look)

/-- Witness for claim C4: deleting id 5 from a store holding record 5 and a
list view containing it empties both. -/
theorem claim_C4_witness :
    ((sampleSys.store.map Prod.fst).Nodup
     ∧ getQueryData sampleSys.store (recordQueryKey "t" sampleRec5.id) =
         some (.record sampleRec5)
     ∧ sampleRec5.id ≠ JsId.str "list"
     ∧ (sampleSys.views.map listKeyOf).Nodup)
    ∧ ∃ sys', applyRealtimeEvent sampleSys
        ⟨"DELETE", "t", none, some sampleRec5⟩ = .ok sys'
      ∧ getQueryData sys'.store (recordQueryKey "t" sampleRec5.id) = none
      ∧ (∀ v ∈ sampleSys.views, v.table = "t" → ∀ l,
          getListData sampleSys.store (listKeyOf v) = some l →
          (l.map Rec.id).Nodup →
          getListData sys'.store (listKeyOf v) =
            some (l.filter (fun x => decide (x.id ≠ sampleRec5.id))))
      ∧ (∀ v ∈ sampleSys.views, v.table ≠ "t" →
          getListData sys'.store (listKeyOf v) =
            getListData sampleSys.store (listKeyOf v)) :=
  ⟨⟨by decide, rfl, by decide, by decide⟩,
   claim_C4 sampleSys "t" sampleRec5 (.record sampleRec5)
     (by decide) rfl (by decide) (by decide)⟩

theorem cacheRecords_lookup_other (table : String) (records : List Rec) (s : Store)
    (K : Key) (hK : ∀ item ∈ records, recordQueryKey table item.id ≠ K) :
    getQueryData (cacheRecords table records s) K = getQueryData s K := by
  induction records generalizing s with
  | nil => rfl
  | cons item rest ih =>
    show getQueryData (cacheRecords table rest
      (setQueryData s (recordQueryKey table item.id) (.record item))) K = _
    rw [ih _ (fun x hx => hK x (List.mem_cons_of_mem _ hx))]
    exact alistGet_set_ne s (recordQueryKey table item.id) K (.record item)
      (fun h => hK item (List.mem_cons_self _ _) h.symm)

theorem recordQueryKey_inj_id (table : String) (i j : JsId)
    (h : recordQueryKey table i = recordQueryKey table j) : i = j := by
  simpa [recordQueryKey] using h

theorem cacheRecords_lookup_mem (table : String) (records : List Rec) (s : Store)
    (hnd : (records.map Rec.id).Nodup) :
    ∀ item ∈ records,
      getQueryData (cacheRecords table records s) (recordQueryKey table item.id) =
        some (.record item) := by
  induction records generalizing s with
  | nil => intro item h; cases h
  | cons a rest ih =>
    simp only [List.map_cons, List.nodup_cons] at hnd
    intro item hitem
    rcases List.mem_cons.mp hitem with h | h
    · subst h
      show getQueryData (cacheRecords table rest
        (setQueryData s (recordQueryKey table item.id) (.record item)))
        (recordQueryKey table item.id) = _
      rw [cacheRecords_lookup_other table rest _ _ ?hother]
      · exact alistGet_set_self s (recordQueryKey table item.id) (.record item)
      case hother =>
        intro x hx heq
        exact hnd.1 (by
          rw [← recordQueryKey_inj_id table x.id item.id heq]
          exact List.mem_map_of_mem Rec.id hx)
    · exact ih _ hnd.2 item h

/-- Claim C7: a filtered list fetch surfaces a remote error unchanged with
no cache write at all, and on success returns the full ordered result set
while upserting every returned record into the record cache under
`(table, record.id)` (leaving unrelated keys untouched). -/
theorem claim_C7 (store : Store) (table : String) :
    (∀ e, getRecords store table (.err e) = (.error e, store))
    ∧ (∀ records : List Rec,
        (getRecords store table (.ok records)).1 = .ok records
        ∧ ((records.map Rec.id).Nodup → ∀ item ∈ records,
            getRecordData (getRecords store table (.ok records)).2 table item.id =
              some item)
        ∧ (∀ K, (∀ item ∈ records, recordQueryKey table item.id ≠ K) →
            getQueryData (getRecords store table (.ok records)).2 K =
              getQueryData store K)) := by
  refine ⟨fun e => rfl, fun records => ⟨rfl, ?_, ?_⟩⟩
  · intro hnd item hit
    have hlook := cacheRecords_lookup_mem table records store hnd item hit
    show (match getQueryData (cacheRecords table records store)
        (recordQueryKey table item.id) with
      | some (.record r) => some r
      | _ => none) = some item
    rw [hlook]
  · intro K hK
    exact cacheRecords_lookup_other table records store K hK

/-- Witness for claim C7: a failing fetch leaves the sample store alone;
a successful fetch of one record caches it. -/
theorem claim_C7_witness :
    (getRecords sampleSys.store "t" (.err "boom") = (.error "boom", sampleSys.store))
    ∧ ([sampleRec5].map Rec.id).Nodup
    ∧ getRecordData (getRecords sampleSys.store "t" (.ok [sampleRec5])).2 "t"
        sampleRec5.id = some sampleRec5 :=
  ⟨(claim_C7 sampleSys.store "t").1 "boom",
   by decide,
   ((claim_C7 sampleSys.store "t").2 [sampleRec5]).2.1 (by decide) sampleRec5
     (List.mem_cons_self _ _)⟩

/-- Claim C8: the mutating operations call the remote and surface its
result or error, and leave the query cache (records and view entries)
completely unchanged — no optimistic cache mutation on the write path. -/
theorem claim_C8 (α : Type) (store : Store) (resp : RemoteResp α) :
    ((createRecord store resp).2 = store
      ∧ (createRecord store resp).1 = throwIfError resp)
    ∧ ((updateRecord store resp).2 = store
      ∧ (updateRecord store resp).1 = throwIfError resp)
    ∧ ((deleteRecord store resp).2 = store
      ∧ (deleteRecord store resp).1 = throwIfError resp)
    ∧ (∀ d, resp = .ok d →
        (createRecord store resp).1 = .ok d
        ∧ (updateRecord store resp).1 = .ok d
        ∧ (deleteRecord store resp).1 = .ok d)
    ∧ (∀ e, resp = .err e →
        (createRecord store resp).1 = .error e
        ∧ (updateRecord store resp).1 = .error e
        ∧ (deleteRecord store resp).1 = .error e) := by
  refine ⟨⟨rfl, rfl⟩, ⟨rfl, rfl⟩, ⟨rfl, rfl⟩, ?_, ?_⟩
  · intro d hd
    subst hd
    exact ⟨rfl, rfl, rfl⟩
  · intro e he
    subst he
    exact ⟨rfl, rfl, rfl⟩

/-- Witness for claim C8: a successful remote delete response is returned
as-is and the sample store is untouched. -/
theorem claim_C8_witness :
    ((deleteRecord sampleSys.store (RemoteResp.ok (0 : Int))).2 = sampleSys.store)
    ∧ (deleteRecord sampleSys.store (RemoteResp.ok (0 : Int))).1 = .ok 0 :=
  ⟨(claim_C8 Int sampleSys.store (.ok 0)).2.2.1.1,
   ((claim_C8 Int sampleSys.store (.ok 0)).2.2.2.1 0 rfl).2.2⟩

/-- Claim C9: `destroy()` is idempotent — it clears the whole query cache,
runs the subscription teardown exactly once no matter how many times
`destroy()` is called, is safe (a no-op on the subscription) when no event
source was supplied, and a second `destroy()` leaves the already empty,
unsubscribed state unchanged. -/
theorem claim_C9 (s : RepoState) :
    destroy (destroy s) = destroy s
    ∧ (destroy s).store = []
    ∧ (∀ sub, s.subscription = some sub → sub.closed = false →
        (destroy s).subscription = some ⟨true, sub.teardownCalls + 1⟩
        ∧ (destroy (destroy s)).subscription = some ⟨true, sub.teardownCalls + 1⟩)
    ∧ (s.subscription = none →
        destroy s = ⟨none, []⟩ ∧ destroy (destroy s) = ⟨none, []⟩) := by
  refine ⟨?_, rfl, ?_, ?_⟩
  · unfold destroy
    cases hs : s.subscription with
    | none => rfl
    | some sub =>
      simp only [Option.map_some]
      congr 1
      unfold Subscription.unsubscribe
      by_cases hc : sub.closed
      · simp [hc]
      · simp [hc]
  · intro sub hsub hclosed
    have h1 : (destroy s).subscription = some ⟨true, sub.teardownCalls + 1⟩ := by
      unfold destroy Subscription.unsubscribe
      rw [hsub]
      simp [hclosed]
    refine ⟨h1, ?_⟩
    have h2 : (destroy (destroy s)).subscription =
        Option.map Subscription.unsubscribe (destroy s).subscription := rfl
    rw [h2, h1]
    rfl
  · intro hnone
    have h1 : destroy s = ⟨none, []⟩ := by
      unfold destroy
      rw [hnone]
      rfl
    exact ⟨h1, by rw [h1]; rfl⟩

/-- Witness for claim C9: destroying a repository with an open subscription
and a non-empty cache runs the teardown once, empties the cache, and a
second destroy changes nothing. -/
theorem claim_C9_witness :
    (destroy (destroy ⟨some ⟨false, 0⟩, sampleSys.store⟩) =
      destroy ⟨some ⟨false, 0⟩, sampleSys.store⟩)
    ∧ (destroy ⟨some ⟨false, 0⟩, sampleSys.store⟩).store = []
    ∧ (destroy ⟨some ⟨false, 0⟩, sampleSys.store⟩).subscription = some ⟨true, 1⟩ :=
  ⟨(claim_C9 ⟨some ⟨false, 0⟩, sampleSys.store⟩).1,
   (claim_C9 ⟨some ⟨false, 0⟩, sampleSys.store⟩).2.1,
   ((claim_C9 ⟨some ⟨false, 0⟩, sampleSys.store⟩).2.2.1 ⟨false, 0⟩ rfl rfl).1⟩

/-- Claim C10: `useRecordById`'s query function returns `null` without
calling the remote for every falsy id — not only `null` but also the valid
row ids `0` and `""` (the guard tests truthiness, not null-ness) — and a
`null` id is cached under the key `(table, "null")`, colliding with the key
of a record whose id is the literal string `"null"`. -/
theorem claim_C10 (remote : JsId → Option Rec) (table : String) (id : Option JsId) :
    (jsFalsy id = true → useRecordByIdQueryFn remote id = ⟨none, false⟩)
    ∧ jsFalsy (some (.num 0)) = true
    ∧ jsFalsy (some (.str "")) = true
    ∧ jsFalsy none = true
    ∧ useRecordByIdQueryKey table none = useRecordByIdQueryKey table (some (.str "null"))
    ∧ (jsFalsy id = false → ∀ i, id = some i →
        useRecordByIdQueryFn remote id = ⟨remote i, true⟩) := by
  refine ⟨?_, rfl, rfl, rfl, rfl, ?_⟩
  · intro h
    unfold useRecordByIdQueryFn
    rw [h]
    rfl
  · intro h i hi
    unfold useRecordByIdQueryFn
    rw [h, hi]
    rfl

/-- Witness for claim C10: the number id `0` is falsy, so the query
function resolves `null` without a remote call. -/
theorem claim_C10_witness :
    (jsFalsy (some (.num 0)) = true
      ∧ useRecordByIdQueryFn (fun _ => none) (some (.num 0)) = ⟨none, false⟩)
    ∧ useRecordByIdQueryKey "t" none = useRecordByIdQueryKey "t" (some (.str "null")) :=
  ⟨⟨by decide,
    (claim_C10 (fun _ => none) "t" (some (.num 0))).1 (by decide)⟩,
   (claim_C10 (fun _ => none) "t" none).2.2.2.2.1⟩

theorem partitionLoop_missing (store : Store) (table : String) (ids : List JsId)
    (m : JsMap) (miss : List JsId) :
    (partitionLoop store table ids m miss).2 =
      miss ++ ids.filter (fun id => (getRecordData store table id).isNone) := by
  induction ids generalizing m miss with
  | nil => simp [partitionLoop]
  | cons id rest ih =>
    cases hc : getRecordData store table id with
    | some cached => simp [partitionLoop, hc, ih]
    | none => simp [partitionLoop, hc, ih]

theorem partitionLoop_mapGet (store : Store) (table : String) (ids : List JsId)
    (m : JsMap) (miss : List JsId) (x : JsId) :
    alistGet (partitionLoop store table ids m miss).1 x =
      match getRecordData store table x with
      | some r => if x ∈ ids then some r else alistGet m x
      | none => alistGet m x := by
  induction ids generalizing m miss with
  | nil =>
    cases getRecordData store table x <;> simp [partitionLoop]
  | cons id rest ih =>
    cases hc : getRecordData store table id with
    | some cached =>
      simp only [partitionLoop, hc]
      rw [ih]
      by_cases hx : x = id
      · subst hx
        rw [hc]
        have hself := alistGet_set_self m x cached
        by_cases hmem : x ∈ rest <;> simp [hmem, hself]
      · have hget := alistGet_set_ne m id x cached hx
        cases hgx : getRecordData store table x with
        | some r => simp [hget, hx, List.mem_cons]
        | none => simp [hget]
    | none =>
      simp only [partitionLoop, hc]
      rw [ih]
      cases hgx : getRecordData store table x with
      | some r =>
        have hx : x ≠ id := by
          intro h
          rw [h, hc] at hgx
          cases hgx
        simp [hx, List.mem_cons]
      | none => simp

theorem applyFetchedLoop_fst (table : String) (fetched : List Rec) (s : Store)
    (m : JsMap) :
    (applyFetchedLoop table fetched s m).1 = cacheRecords table fetched s := by
  induction fetched generalizing s m with
  | nil => rfl
  | cons item rest ih => exact ih _ _

theorem applyFetchedLoop_mapGet (table : String) (fetched : List Rec) (s : Store)
    (m : JsMap) (x : JsId) (hnd : (fetched.map Rec.id).Nodup) :
    alistGet (applyFetchedLoop table fetched s m).2 x =
      match fetched.find? (fun item => decide (item.id = x)) with
      | some item => some item
      | none => alistGet m x := by
  induction fetched generalizing s m with
  | nil => simp [applyFetchedLoop]
  | cons item rest ih =>
    simp only [List.map_cons, List.nodup_cons] at hnd
    by_cases hx : item.id = x
    · have hfind : (item :: rest).find? (fun it => decide (it.id = x)) = some item := by
        simp [List.find?_cons, hx]
      have hrest : rest.find? (fun it => decide (it.id = x)) = none := by
        rw [List.find?_eq_none]
        intro a ha hax
        simp only [decide_eq_true_eq] at hax
        exact hnd.1 (by rw [hx, ← hax]; exact List.mem_map_of_mem Rec.id ha)
      show alistGet (applyFetchedLoop table rest _ (alistSet m item.id item)).2 x = _
      rw [ih _ _ hnd.2, hfind, hrest]
      rw [← hx]
      exact alistGet_set_self m item.id item
    · have hfind : (item :: rest).find? (fun it => decide (it.id = x)) =
          rest.find? (fun it => decide (it.id = x)) := by
        simp [List.find?_cons, hx]
      show alistGet (applyFetchedLoop table rest _ (alistSet m item.id item)).2 x = _
      rw [ih _ _ hnd.2, hfind]
      cases rest.find? (fun it => decide (it.id = x)) with
      | some it => rfl
      | none => exact alistGet_set_ne m item.id x item (fun h => hx h.symm)

theorem fetchByIds_allCached (store : Store) (table : String)
    (remote : List JsId → List Rec) (ids : List JsId) (hne : ids ≠ [])
    (hm : (partitionLoop store table ids [] []).2 = []) :
    fetchByIds store table remote ids =
      ⟨ids.filterMap (fun id => alistGet (partitionLoop store table ids [] []).1 id),
       store, 0, []⟩ := by
  unfold fetchByIds
  rw [if_neg (by simp [hne])]
  simp only [hm, List.isEmpty_nil, if_true]

theorem fetchByIds_withMissing (store : Store) (table : String)
    (remote : List JsId → List Rec) (ids : List JsId) (hne : ids ≠ [])
    (hm : (partitionLoop store table ids [] []).2 ≠ []) :
    fetchByIds store table remote ids =
      ⟨ids.filterMap (fun id => alistGet (applyFetchedLoop table
          (remote (partitionLoop store table ids [] []).2) store
          (partitionLoop store table ids [] []).1).2 id),
       (applyFetchedLoop table (remote (partitionLoop store table ids [] []).2) store
          (partitionLoop store table ids [] []).1).1,
       1, (partitionLoop store table ids [] []).2⟩ := by
  unfold fetchByIds
  rw [if_neg (by simp [hne])]
  simp only [List.isEmpty_eq_true, hm, if_false]

/-- Claim C6: one run of the batch-by-ids query function partitions the
input ids into cached and missing, issues exactly one batched remote fetch
for the missing subset (none when it is empty), stores each fetched record
in the record cache, and returns the resolved records in input order with
unresolved ids silently omitted.  The remote is assumed sane: it answers
only the requested (missing) ids, each at most once — the behaviour of the
`.in("id", missingIds)` select. -/
theorem claim_C6 (store : Store) (table : String) (remote : List JsId → List Rec)
    (ids : List JsId)
    (hremote : ∀ item ∈ remote (missingIdsOf store table ids),
      item.id ∈ missingIdsOf store table ids)
    (hndFetched : ((remote (missingIdsOf store table ids)).map Rec.id).Nodup) :
    (fetchByIds store table remote ids).remoteCalls =
      (if missingIdsOf store table ids = [] then 0 else 1)
    ∧ (fetchByIds store table remote ids).requestedIds =
      (if missingIdsOf store table ids = [] then [] else missingIdsOf store table ids)
    ∧ (missingIdsOf store table ids ≠ [] →
        ∀ item ∈ remote (missingIdsOf store table ids),
          getRecordData (fetchByIds store table remote ids).store table item.id =
            some item)
    ∧ (fetchByIds store table remote ids).result =
        ids.filterMap (fun id =>
          match getRecordData store table id with
          | some r => some r
          | none => (remote (missingIdsOf store table ids)).find?
              (fun item => decide (item.id = id))) := by
  have hpm2 : (partitionLoop store table ids [] []).2 = missingIdsOf store table ids := by
    rw [partitionLoop_missing]
    rfl
  by_cases hne : ids = []
  · subst hne
    have hmiss : missingIdsOf store table ([] : List JsId) = [] := rfl
    refine ⟨?_, ?_, ?_, ?_⟩
    · rw [hmiss]; rfl
    · rw [hmiss]; rfl
    · intro h; exact absurd hmiss h
    · rfl
  · by_cases hm : missingIdsOf store table ids = []
    · have hout := fetchByIds_allCached store table remote ids hne (by rw [hpm2, hm])
      have hcached : ∀ id ∈ ids, ¬ (getRecordData store table id).isNone = true :=
        List.filter_eq_nil_iff.mp hm
      refine ⟨?_, ?_, ?_, ?_⟩
      · rw [hout, hm]; rfl
      · rw [hout, hm]; rfl
      · intro h; exact absurd hm h
      · rw [hout]
        show ids.filterMap _ = ids.filterMap _
        refine List.filterMap_congr ?_
        intro id hid
        rw [partitionLoop_mapGet]
        cases hgx : getRecordData store table id with
        | some r => simp [hid]
        | none => exact absurd (by rw [hgx]; rfl) (hcached id hid)
      
    · have hout := fetchByIds_withMissing store table remote ids hne (by rw [hpm2]; exact hm)
      have hfetchNone : ∀ id : JsId, (getRecordData store table id).isSome →
          (remote (missingIdsOf store table ids)).find?
            (fun item => decide (item.id = id)) = none := by
        intro id hsome
        rw [List.find?_eq_none]
        intro a ha hax
        simp only [decide_eq_true_eq] at hax
        have hamiss := hremote a ha
        rw [hax] at hamiss
        have := (List.mem_filter.mp hamiss).2
        rw [Option.isNone_iff_eq_none] at this
        rw [this] at hsome
        cases hsome
      refine ⟨?_, ?_, ?_, ?_⟩
      · rw [hout, if_neg hm]
      · rw [hout, hpm2, if_neg hm]
      · intro _ item hitem
        rw [hout]
        show getRecordData (applyFetchedLoop table
          (remote (partitionLoop store table ids [] []).2) store
          (partitionLoop store table ids [] []).1).1 table item.id = some item
        rw [applyFetchedLoop_fst, hpm2]
        have hlook := cacheRecords_lookup_mem table
          (remote (missingIdsOf store table ids)) store hndFetched item hitem
        show (match getQueryData (cacheRecords table
            (remote (missingIdsOf store table ids)) store)
            (recordQueryKey table item.id) with
          | some (.record r) => some r
          | _ => none) = some item
        rw [hlook]
      · rw [hout]
        show ids.filterMap _ = ids.filterMap _
        refine List.filterMap_congr ?_
        intro id hid
        rw [hpm2, applyFetchedLoop_mapGet table _ store _ id hndFetched,
          partitionLoop_mapGet]
        cases hgx : getRecordData store table id with
        | some r =>
          rw [hfetchNone id (by rw [hgx]; rfl)]
          simp [hid]
        | none =>
          cases hfind : (remote (missingIdsOf store table ids)).find?
              (fun item => decide (item.id = id)) with
          | some it => rfl
          | none => rfl

/-- Witness for claim C6, the spec's compaction example: ids `[1,2,3]`
with only `1` cached and the remote returning `2` but not `3` yield
`[rec1, rec2]`, with records 1 and 2 cached afterwards and exactly one
remote call for the missing subset. -/
theorem claim_C6_witness :
    ((∀ item ∈ sampleByIdsRemote (missingIdsOf sampleByIdsStore "t" sampleByIdsIds),
        item.id ∈ missingIdsOf sampleByIdsStore "t" sampleByIdsIds)
     ∧ ((sampleByIdsRemote (missingIdsOf sampleByIdsStore "t" sampleByIdsIds)).map
          Rec.id).Nodup)
    ∧ (fetchByIds sampleByIdsStore "t" sampleByIdsRemote sampleByIdsIds).result =
        sampleByIdsIds.filterMap (fun id =>
          match getRecordData sampleByIdsStore "t" id with
          | some r => some r
          | none => (sampleByIdsRemote
              (missingIdsOf sampleByIdsStore "t" sampleByIdsIds)).find?
              (fun item => decide (item.id = id)))
    ∧ sampleByIdsIds.filterMap (fun id =>
          match getRecordData sampleByIdsStore "t" id with
          | some r => some r
          | none => (sampleByIdsRemote
              (missingIdsOf sampleByIdsStore "t" sampleByIdsIds)).find?
              (fun item => decide (item.id = id))) =
        [⟨.num 1, []⟩, ⟨.num 2, []⟩]
    ∧ getRecordData (fetchByIds sampleByIdsStore "t" sampleByIdsRemote
        sampleByIdsIds).store "t" (.num 2) = some ⟨.num 2, []⟩
    ∧ (fetchByIds sampleByIdsStore "t" sampleByIdsRemote sampleByIdsIds).remoteCalls = 1 :=
  ⟨⟨by decide, by decide⟩,
   (claim_C6 sampleByIdsStore "t" sampleByIdsRemote sampleByIdsIds
      (by decide) (by decide)).2.2.2,
   by decide,
   (claim_C6 sampleByIdsStore "t" sampleByIdsRemote sampleByIdsIds
      (by decide) (by decide)).2.2.1 (by decide) ⟨.num 2, []⟩ (by decide),
   by decide⟩

/-- Claim C1 (code divergence): `useRecordByIds` does NOT read and write its
materialized result under the normalized (sorted, comma-joined) cache key.
Its `useQuery` key joins the ids unsorted, so the requests for `[2,1]` and
`[1,2]` use two distinct cache entries; the hook's own realtime
subscription writes refreshed results under the sorted key, which the
`[2,1]` query never reads; and the two runs return the records in
different orders.  The normalized key factory `recordByIdsQueryKey` — which
the hook fails to use — is indeed order-independent. -/
theorem claim_C1_key_divergence :
    useRecordByIdsQueryKey "t" [.num 2, .num 1] ≠
      useRecordByIdsQueryKey "t" [.num 1, .num 2]
    ∧ recordByIdsQueryKey "t" [.num 2, .num 1] =
      recordByIdsQueryKey "t" [.num 1, .num 2]
    ∧ useRecordByIdsQueryKey "t" [.num 2, .num 1] ≠
      useRecordByIdsSubscriptionWriteKey "t" [.num 2, .num 1]
    ∧ useRecordByIdsQueryKey "t" [.num 1, .num 2] =
      recordByIdsQueryKey "t" [.num 1, .num 2]
    ∧ (fetchByIds sampleBothStore "t" (fun _ => []) [.num 2, .num 1]).result =
      [⟨.num 2, []⟩, ⟨.num 1, []⟩]
    ∧ (fetchByIds sampleBothStore "t" (fun _ => []) [.num 1, .num 2]).result =
      [⟨.num 1, []⟩, ⟨.num 2, []⟩] := by
  refine ⟨by decide, by decide, by decide, by decide, by decide, by decide⟩
